import Mathlib

/-
  Verification development for the memory subsystem of the cairo-rs Cairo VM
  excerpt: the segment manager (`memory_segments.rs`) and the `set_add`
  builtin hint (`set.rs`).

  The segment-manager operations are translated directly from
  `src/vm/vm_memory/memory_segments.rs`.  The memory store (`memory.rs`),
  the relocatable-value arithmetic (`relocatable.rs`) and the hint variable
  binding (`hint_utils.rs`) are not part of the excerpt; those definitions
  are modelled from the specification and are marked as such in their doc
  comments.  Rust `HashMap`s are modelled as association lists, `HashSet`s
  as duplicate-free lists, machine integers as `Nat`, and fallible
  operations as `Except`.
-/

namespace CairoRs

/-- The Cairo prime that `Felt` arithmetic is reduced by. -/
def PRIME : Nat := 2 ^ 251 + 17 * 2 ^ 192 + 1

/-- Upper bound of the machine word (`usize`, 64-bit). -/
def USIZE_BOUND : Nat := 2 ^ 64

/-- Modelled from the spec: `Felt::to_usize` succeeds exactly when the
representative fits the machine word range `[0, 2^64)`. -/
def feltToUsize (f : Nat) : Option Nat :=
  if f < USIZE_BOUND then some f else none

/-- A logical address: signed segment index and word offset
(`Relocatable` in `relocatable.rs`). -/
structure Relocatable where
  segment_index : Int
  offset : Nat
  deriving DecidableEq, Repr

/-- A memory value: a field element or a pointer
(`MaybeRelocatable` in `relocatable.rs`). -/
inductive MaybeRelocatable where
  | Int (f : Nat)
  | RelocatableValue (r : Relocatable)
  deriving DecidableEq, Repr

/-- The error kinds of `MemoryError` that the modelled operations use. -/
inductive MemoryError where
  | AddressNotRelocatable
  | InconsistentMemory (addr old new : MaybeRelocatable)
  | UnallocatedSegment (i len : Nat)
  | MissingSegmentUsedSizes
  | EffectiveSizesNotCalled
  | SegmentNotFinalized (i : Nat)
  | AddressInTemporarySegment (s : Int)
  | AccessedAddressOffsetBiggerThanSegmentSize (addr : Relocatable) (size : Nat)
  | CantGetMutAccessedOffset
  | GetRangeMemoryGap (addr : MaybeRelocatable) (size : Nat)
  | WriteArg
  | GenArgInvalidType
  deriving DecidableEq, Repr

/-- `from_relocatable_to_indexes` (in `utils.rs`): a non-negative segment
index addresses the real vector directly, a negative index `s` addresses
physical slot `-s - 1`. -/
def from_relocatable_to_indexes (r : Relocatable) : Nat × Nat :=
  if 0 ≤ r.segment_index then (r.segment_index.toNat, r.offset)
  else ((-(r.segment_index) - 1).toNat, r.offset)

/-- Modelled from the spec: the memory store of `memory.rs` holds real
segments and temporary segments, each an append-structured vector of
optional cells. -/
structure Memory where
  data : List (List (Option MaybeRelocatable))
  temp_data : List (List (Option MaybeRelocatable))
  deriving DecidableEq, Repr

/-- Extend a segment with holes so that index `o` exists. -/
def extendTo (seg : List (Option MaybeRelocatable)) (o : Nat) :
    List (Option MaybeRelocatable) :=
  seg ++ List.replicate (o + 1 - seg.length) none

/-- Modelled from the spec: `Memory::insert` (in `memory.rs`, not part of
the excerpt): the address must be a pointer; the backing vector of its
segment is extended with holes up to the offset, then the value is written
if the slot is empty or already holds an equal value; a conflicting write
fails with `InconsistentMemory`, an integer address with
`AddressNotRelocatable`, an out-of-range segment deterministically. -/
def Memory.insert (mem : Memory) (addr v : MaybeRelocatable) :
    Except MemoryError Memory :=
  match addr with
  | .Int _ => .error .AddressNotRelocatable
  | .RelocatableValue r =>
    let io := from_relocatable_to_indexes r
    if 0 ≤ r.segment_index then
      if io.1 < mem.data.length then
        let seg := extendTo (mem.data.getD io.1 []) io.2
        match seg.getD io.2 none with
        | none => .ok { mem with data := mem.data.set io.1 (seg.set io.2 (some v)) }
        | some old =>
          if old = v then
            .ok { mem with data := mem.data.set io.1 (seg.set io.2 (some v)) }
          else .error (.InconsistentMemory addr old v)
      else .error (.UnallocatedSegment io.1 mem.data.length)
    else
      if io.1 < mem.temp_data.length then
        let seg := extendTo (mem.temp_data.getD io.1 []) io.2
        match seg.getD io.2 none with
        | none =>
          .ok { mem with temp_data := mem.temp_data.set io.1 (seg.set io.2 (some v)) }
        | some old =>
          if old = v then
            .ok { mem with temp_data := mem.temp_data.set io.1 (seg.set io.2 (some v)) }
          else .error (.InconsistentMemory addr old v)
      else .error (.UnallocatedSegment io.1 mem.temp_data.length)

/-- The cell a pointer resolves to (`none` both for holes and for
out-of-range addresses; `Memory.get` distinguishes the latter). -/
def Memory.cell (mem : Memory) (r : Relocatable) : Option MaybeRelocatable :=
  let io := from_relocatable_to_indexes r
  (((if 0 ≤ r.segment_index then mem.data else mem.temp_data).getD io.1 []).getD io.2 none)

/-- Modelled from the spec: `Memory::get` returns the cell when populated,
`none` for a hole, and fails for an out-of-range segment or an integer
address. -/
def Memory.get (mem : Memory) (addr : MaybeRelocatable) :
    Except MemoryError (Option MaybeRelocatable) :=
  match addr with
  | .Int _ => .error .AddressNotRelocatable
  | .RelocatableValue r =>
    let io := from_relocatable_to_indexes r
    let vec := if 0 ≤ r.segment_index then mem.data else mem.temp_data
    if io.1 < vec.length then .ok ((vec.getD io.1 []).getD io.2 none)
    else .error (.UnallocatedSegment io.1 vec.length)

/-- Modelled from the spec: `MaybeRelocatable::add_usize` shifts a pointer
offset and performs field addition on an integer. -/
def MaybeRelocatable.add_usize (p : MaybeRelocatable) (k : Nat) : MaybeRelocatable :=
  match p with
  | .Int f => .Int ((f + k) % PRIME)
  | .RelocatableValue r => .RelocatableValue ⟨r.segment_index, r.offset + k⟩

/-- Modelled from the spec: `Memory::get_range` reads `count` consecutive
cells; any hole or out-of-range access surfaces as an error. -/
def Memory.get_range (mem : Memory) (addr : MaybeRelocatable) :
    Nat → Except MemoryError (List MaybeRelocatable)
  | 0 => .ok []
  | n + 1 =>
    match mem.get addr with
    | .error e => .error e
    | .ok none => .error (.GetRangeMemoryGap addr (n + 1))
    | .ok (some v) =>
      match mem.get_range (addr.add_usize 1) n with
      | .error e => .error e
      | .ok rest => .ok (v :: rest)

/-- Lookup in an association list modelling a Rust `HashMap<usize, usize>`. -/
def assocLookup : List (Nat × Nat) → Nat → Option Nat
  | [], _ => none
  | p :: rest, k => if p.1 = k then some p.2 else assocLookup rest k

/-- `MemorySegmentManager` (from `memory_segments.rs`); `segment_sizes` and
`public_memory_offsets` are `HashMap`s modelled as association lists. -/
structure MemorySegmentManager where
  segment_sizes : List (Nat × Nat)
  segment_used_sizes : Option (List Nat)
  memory : Memory
  public_memory_offsets : List (Nat × List (Nat × Nat))
  deriving DecidableEq, Repr

namespace MemorySegmentManager

/-- `num_segments`: number of segments in the real memory. -/
def num_segments (m : MemorySegmentManager) : Nat :=
  m.memory.data.length

/-- `compute_effective_sizes`: if unset, snapshot each real segment's
length; otherwise return the cached vector (modelled by also returning the
possibly-updated manager). -/
def compute_effective_sizes (m : MemorySegmentManager) :
    MemorySegmentManager × List Nat :=
  match m.segment_used_sizes with
  | some s => (m, s)
  | none =>
    ({ m with segment_used_sizes := some (m.memory.data.map List.length) },
     m.memory.data.map List.length)

/-- `get_segment_used_size`. -/
def get_segment_used_size (m : MemorySegmentManager) (index : Nat) : Option Nat :=
  match m.segment_used_sizes with
  | none => none
  | some l => l[index]?

/-- `get_segment_size`: prefers the declared size, falls back to the
effective size. -/
def get_segment_size (m : MemorySegmentManager) (index : Nat) : Option Nat :=
  match assocLookup m.segment_sizes index with
  | some sz => some sz
  | none => m.get_segment_used_size index

/-- The loop body of `load_data`: insert each value at consecutive offsets. -/
def loadDataLoop (ptr : MaybeRelocatable) :
    Memory → Nat → List MaybeRelocatable → Except MemoryError Memory
  | mem, _, [] => .ok mem
  | mem, num, v :: rest =>
    match mem.insert (ptr.add_usize num) v with
    | .error e => .error e
    | .ok mem2 => loadDataLoop ptr mem2 (num + 1) rest

/-- `load_data`: writes the data at consecutive offsets starting at `ptr`
and returns the first address after the data; insert failures propagate. -/
def load_data (m : MemorySegmentManager) (ptr : MaybeRelocatable)
    (data : List MaybeRelocatable) :
    Except MemoryError (MemorySegmentManager × MaybeRelocatable) :=
  match loadDataLoop ptr m.memory 0 data with
  | .error e => .error e
  | .ok mem => .ok ({ m with memory := mem }, ptr.add_usize data.length)

/-- One iteration of the `relocate_segments` loop: push
`relocation_table[i] + segment_size`. -/
def relocStep (m : MemorySegmentManager)
    (acc : Except MemoryError (List Nat)) (i : Nat) :
    Except MemoryError (List Nat) :=
  match acc with
  | .error e => .error e
  | .ok tbl =>
    match m.get_segment_size i with
    | none => .error (.SegmentNotFinalized i)
    | some sz => .ok (tbl ++ [tbl.getD i 0 + sz])

/-- `relocate_segments`: requires the effective sizes; builds the table
starting at 1 and drops the final cumulative total. -/
def relocate_segments (m : MemorySegmentManager) :
    Except MemoryError (List Nat) :=
  match m.segment_used_sizes with
  | none => .error .EffectiveSizesNotCalled
  | some used =>
    match (List.range used.length).foldl (relocStep m) (.ok [1]) with
    | .error e => .error e
    | .ok tbl => .ok tbl.dropLast

/-- `is_valid_memory_value`: integers and pointers into an existing real
segment are valid; a negative segment index fails with
`AddressInTemporarySegment`; requires the effective sizes. -/
def is_valid_memory_value (m : MemorySegmentManager) (v : MaybeRelocatable) :
    Except MemoryError Bool :=
  match m.segment_used_sizes with
  | none => .error .EffectiveSizesNotCalled
  | some used =>
    match v with
    | .Int _ => .ok true
    | .RelocatableValue r =>
      if 0 ≤ r.segment_index then .ok (decide (r.segment_index.toNat < used.length))
      else .error (.AddressInTemporarySegment r.segment_index)

end MemorySegmentManager

/-- Insertion into a duplicate-free list, modelling `HashSet::insert`. -/
def offsetsInsert (s : List Nat) (x : Nat) : List Nat :=
  if x ∈ s then s else s ++ [x]

/-- Lookup in the accumulator of `get_memory_holes`
(`index ↦ (segment_size, offsets)`). -/
def accLookup : List (Nat × Nat × List Nat) → Nat → Option (Nat × List Nat)
  | [], _ => none
  | e :: rest, i => if e.1 = i then some e.2 else accLookup rest i

/-- Add an offset to the entry of `i` in the accumulator (first match). -/
def accUpdate : List (Nat × Nat × List Nat) → Nat → Nat → List (Nat × Nat × List Nat)
  | [], _, _ => []
  | e :: rest, i, o =>
    if e.1 = i then (e.1, e.2.1, offsetsInsert e.2.2 o) :: rest
    else e :: accUpdate rest i o

/-- The accumulation loop of `get_memory_holes` over the accessed
addresses: fetch or create the `(segment_size, offsets)` entry of the
segment, reject an offset greater than the size, record the offset. -/
def gatherAccessed (m : MemorySegmentManager) :
    List Relocatable → List (Nat × Nat × List Nat) →
    Except MemoryError (List (Nat × Nat × List Nat))
  | [], acc => .ok acc
  | addr :: rest, acc =>
    let io := from_relocatable_to_indexes addr
    match accLookup acc io.1 with
    | some e =>
      if io.2 > e.1 then
        .error (.AccessedAddressOffsetBiggerThanSegmentSize ⟨(io.1 : Int), io.2⟩ e.1)
      else gatherAccessed m rest (accUpdate acc io.1 io.2)
    | none =>
      match m.get_segment_size io.1 with
      | none => .error (.SegmentNotFinalized io.1)
      | some sz =>
        if io.2 > sz then
          .error (.AccessedAddressOffsetBiggerThanSegmentSize ⟨(io.1 : Int), io.2⟩ sz)
        else gatherAccessed m rest (acc ++ [(io.1, sz, [io.2])])

/-- Machine-word (`usize`) subtraction: `a - b` wraps modulo `2^64` when
`b > a` (release semantics; a debug build panics at the same inputs). -/
def usizeSub (a b : Nat) : Nat :=
  (a + USIZE_BOUND - b) % USIZE_BOUND

/-- `get_memory_holes`: sum `segment_size - |accessed offsets|` over the
segment indices below `max(len(segment_sizes), len(segment_used_sizes))`
that have an entry in the accumulator.  The per-segment subtraction and
the running sum are `usize` arithmetic and are rendered with an explicit
`% 2^64`: when every offset `0..=size` of a segment is accessed (admitted
by the `offset > size` bound check) the subtraction underflows. -/
def MemorySegmentManager.get_memory_holes (m : MemorySegmentManager)
    (accessed : List Relocatable) : Except MemoryError Nat :=
  match m.segment_used_sizes with
  | none => .error .MissingSegmentUsedSizes
  | some used =>
    match gatherAccessed m accessed [] with
    | .error e => .error e
    | .ok sets =>
      .ok (((((List.range (max m.segment_sizes.length used.length)).filterMap
        (fun i => accLookup sets i)).map
          (fun e => usizeSub e.1 e.2.length)).sum) % USIZE_BOUND)

/-! ## The `set_add` hint (from `set.rs`) and its spec-modelled dependencies -/

/-- The `VirtualMachineError` kinds that `set_add` can produce. -/
inductive VMError where
  | BigintToUsizeFail
  | ValueNotPositive (f : Nat)
  | Memory (e : MemoryError)
  | DiffIndexSub
  | CantSubOffset
  deriving DecidableEq, Repr

/-- The `HintError` kinds that `set_add` can produce. -/
inductive HintError where
  | Internal (e : VMError)
  | InvalidSetRange (a b : MaybeRelocatable)
  | UnknownIdentifier
  | ExpectedInteger
  | ExpectedRelocatable
  deriving DecidableEq, Repr

/-- The variable names the `set_add` hint binds. -/
inductive VarName where
  | set_ptr
  | elm_size
  | elm_ptr
  | set_end_ptr
  | index
  | is_elm_in_set
  deriving DecidableEq, Repr

/-- Modelled from the spec: the ids/AP-tracking reference machinery of the
variable binding (`hint_utils.rs`, not part of the excerpt), reduced to the
effective address each name resolves to. -/
structure IdsData where
  addrs : VarName → Option Relocatable

/-- The VM state a hint borrows: its memory. -/
structure VirtualMachine where
  memory : Memory
  deriving DecidableEq, Repr

/-- Modelled from the spec: `get_ptr_from_var_name` reads one cell at the
resolved address and requires a pointer value (`ExpectedRelocatable`
otherwise). -/
def get_ptr_from_var_name (n : VarName) (vm : VirtualMachine) (ids : IdsData) :
    Except HintError Relocatable :=
  match ids.addrs n with
  | none => .error .UnknownIdentifier
  | some r =>
    match vm.memory.get (.RelocatableValue r) with
    | .error e => .error (.Internal (.Memory e))
    | .ok (some (.RelocatableValue p)) => .ok p
    | .ok _ => .error .ExpectedRelocatable

/-- Modelled from the spec: `get_integer_from_var_name` reads one cell at
the resolved address and requires an integer value (`ExpectedInteger`
otherwise). -/
def get_integer_from_var_name (n : VarName) (vm : VirtualMachine) (ids : IdsData) :
    Except HintError Nat :=
  match ids.addrs n with
  | none => .error .UnknownIdentifier
  | some r =>
    match vm.memory.get (.RelocatableValue r) with
    | .error e => .error (.Internal (.Memory e))
    | .ok (some (.Int f)) => .ok f
    | .ok _ => .error .ExpectedInteger

/-- Modelled from the spec: `insert_value_from_var_name` writes one cell at
the resolved address, subject to the write-once rule. -/
def insert_value_from_var_name (n : VarName) (v : MaybeRelocatable)
    (vm : VirtualMachine) (ids : IdsData) : Except HintError VirtualMachine :=
  match ids.addrs n with
  | none => .error .UnknownIdentifier
  | some r =>
    match vm.memory.insert (.RelocatableValue r) v with
    | .error e => .error (.Internal (.Memory e))
    | .ok mem2 => .ok { vm with memory := mem2 }

/-- Modelled from the spec: the range guard `set_ptr ≤ set_end_ptr`
(same segment). -/
def Relocatable.leb (a b : Relocatable) : Bool :=
  decide (a.segment_index = b.segment_index ∧ a.offset ≤ b.offset)

/-- Modelled from the spec: pointer subtraction requires equal segments and
a non-negative difference. -/
def Relocatable.sub (a b : Relocatable) : Except VMError Nat :=
  if a.segment_index = b.segment_index then
    if b.offset ≤ a.offset then .ok (a.offset - b.offset)
    else .error .CantSubOffset
  else .error .DiffIndexSub

/-- Modelled from the spec: shifting a pointer by a word count. -/
def Relocatable.addOff (r : Relocatable) (k : Nat) : Relocatable :=
  ⟨r.segment_index, r.offset + k⟩

/-- The iteration points of `(0..limit).step_by(step)`. -/
def stepBy (limit step : Nat) : List Nat :=
  if step = 0 then []
  else (List.range ((limit + step - 1) / step)).map (fun k => k * step)

/-- The search loop of `set_add` over the iteration points: read a row of
width `es`; on the first row equal to `elm` write `index` and
`is_elm_in_set = 1`; when exhausted write `is_elm_in_set = 0`. -/
def setAddLoop (vm : VirtualMachine) (ids : IdsData) (sp : Relocatable)
    (es : Nat) (elm : List MaybeRelocatable) :
    List Nat → Except HintError VirtualMachine
  | [] => insert_value_from_var_name .is_elm_in_set (.Int 0) vm ids
  | i :: rest =>
    match vm.memory.get_range (.RelocatableValue (sp.addOff i)) es with
    | .error e => .error (.Internal (.Memory e))
    | .ok row =>
      if row = elm then
        match insert_value_from_var_name .index (.Int ((i / es) % PRIME)) vm ids with
        | .error e => .error e
        | .ok vm1 => insert_value_from_var_name .is_elm_in_set (.Int 1) vm1 ids
      else setAddLoop vm ids sp es elm rest

/-- `set_add` (from `set.rs`): resolve the four inputs, convert `elm_size`,
read the element, enforce the range guard, and search the set rows. -/
def set_add (vm : VirtualMachine) (ids : IdsData) :
    Except HintError VirtualMachine :=
  match get_ptr_from_var_name .set_ptr vm ids with
  | .error e => .error e
  | .ok sp =>
  match get_integer_from_var_name .elm_size vm ids with
  | .error e => .error e
  | .ok esf =>
  match feltToUsize esf with
  | none => .error (.Internal .BigintToUsizeFail)
  | some es =>
  match get_ptr_from_var_name .elm_ptr vm ids with
  | .error e => .error e
  | .ok ep =>
  match get_ptr_from_var_name .set_end_ptr vm ids with
  | .error e => .error e
  | .ok endp =>
  if es = 0 then .error (.Internal (.ValueNotPositive (es % PRIME)))
  else
  match vm.memory.get_range (.RelocatableValue ep) es with
  | .error e => .error (.Internal (.Memory e))
  | .ok elm =>
  if Relocatable.leb sp endp = false then
    .error (.InvalidSetRange (.RelocatableValue sp) (.RelocatableValue endp))
  else
  match Relocatable.sub endp sp with
  | .error e => .error (.Internal e)
  | .ok rl => setAddLoop vm ids sp es elm (stepBy rl es)

/-! ## List helper lemmas -/

theorem getD_set_self {α : Type} (l : List α) (i : Nat) (a d : α) (h : i < l.length) :
    (l.set i a).getD i d = a := by
  induction l generalizing i with
  | nil => simp at h
  | cons x xs ih =>
    cases i with
    | zero => rfl
    | succ n =>
      simp only [List.set, List.getD_cons_succ]
      exact ih n (by simpa using h)

theorem getD_set_ne {α : Type} (l : List α) (i j : Nat) (a d : α) (h : i ≠ j) :
    (l.set i a).getD j d = l.getD j d := by
  induction l generalizing i j with
  | nil => simp [List.set]
  | cons x xs ih =>
    cases i with
    | zero =>
      cases j with
      | zero => exact absurd rfl h
      | succ n => rfl
    | succ n =>
      cases j with
      | zero => rfl
      | succ k =>
        simp only [List.set, List.getD_cons_succ]
        exact ih n k (fun hh => h (by rw [hh]))

theorem getD_replicate {α : Type} (k j : Nat) (d : α) :
    (List.replicate k d).getD j d = d := by
  induction k generalizing j with
  | zero => simp
  | succ n ih =>
    cases j with
    | zero => rfl
    | succ m => exact ih m

theorem getD_append_replicate {α : Type} (l : List α) (k j : Nat) (d : α) :
    (l ++ List.replicate k d).getD j d = l.getD j d := by
  induction l generalizing j with
  | nil => exact getD_replicate k j d
  | cons x xs ih =>
    cases j with
    | zero => rfl
    | succ m => simpa [List.getD_cons_succ] using ih m

theorem getD_map_length {α : Type} (l : List (List α)) (i : Nat) (h : i < l.length) :
    (l.map List.length).getD i 0 = (l.getD i []).length := by
  induction l generalizing i with
  | nil => simp at h
  | cons x xs ih =>
    cases i with
    | zero => rfl
    | succ n =>
      simp only [List.map, List.getD_cons_succ]
      exact ih n (by simpa using h)

theorem getD_extendTo (seg : List (Option MaybeRelocatable)) (o j : Nat) :
    (extendTo seg o).getD j none = seg.getD j none :=
  getD_append_replicate seg (o + 1 - seg.length) j none

theorem lt_length_extendTo (seg : List (Option MaybeRelocatable)) (o : Nat) :
    o < (extendTo seg o).length := by
  simp only [extendTo, List.length_append, List.length_replicate]
  omega

/-! ## Lemmas about `Memory.insert` -/

theorem Memory.insert_ok_real (mem : Memory) (r : Relocatable) (v : MaybeRelocatable)
    (mem2 : Memory) (hs : 0 ≤ r.segment_index)
    (h : mem.insert (.RelocatableValue r) v = .ok mem2) :
    r.segment_index.toNat < mem.data.length ∧
    mem2.data = mem.data.set r.segment_index.toNat
      ((extendTo (mem.data.getD r.segment_index.toNat []) r.offset).set r.offset (some v)) ∧
    mem2.temp_data = mem.temp_data := by
  simp only [Memory.insert, from_relocatable_to_indexes, if_pos hs] at h
  by_cases hl : r.segment_index.toNat < mem.data.length
  · simp only [if_pos hl] at h
    refine ⟨hl, ?_⟩
    split at h
    · cases (Except.ok.inj h); exact ⟨rfl, rfl⟩
    · split at h
      · cases (Except.ok.inj h); exact ⟨rfl, rfl⟩
      · exact absurd h (by simp)
  · simp only [if_neg hl] at h
    exact absurd h (by simp)

theorem Memory.insert_ok_temp (mem : Memory) (r : Relocatable) (v : MaybeRelocatable)
    (mem2 : Memory) (hs : ¬ 0 ≤ r.segment_index)
    (h : mem.insert (.RelocatableValue r) v = .ok mem2) :
    (-(r.segment_index) - 1).toNat < mem.temp_data.length ∧
    mem2.temp_data = mem.temp_data.set (-(r.segment_index) - 1).toNat
      ((extendTo (mem.temp_data.getD (-(r.segment_index) - 1).toNat []) r.offset).set
        r.offset (some v)) ∧
    mem2.data = mem.data := by
  simp only [Memory.insert, from_relocatable_to_indexes, if_neg hs] at h
  by_cases hl : (-(r.segment_index) - 1).toNat < mem.temp_data.length
  · simp only [if_pos hl] at h
    refine ⟨hl, ?_⟩
    split at h
    · cases (Except.ok.inj h); exact ⟨rfl, rfl⟩
    · split at h
      · cases (Except.ok.inj h); exact ⟨rfl, rfl⟩
      · exact absurd h (by simp)
  · simp only [if_neg hl] at h
    exact absurd h (by simp)

theorem Memory.insert_length (mem : Memory) (r : Relocatable) (v : MaybeRelocatable)
    (mem2 : Memory) (h : mem.insert (.RelocatableValue r) v = .ok mem2) :
    mem2.data.length = mem.data.length ∧
    mem2.temp_data.length = mem.temp_data.length := by
  by_cases hs : 0 ≤ r.segment_index
  · obtain ⟨-, hd, ht⟩ := Memory.insert_ok_real mem r v mem2 hs h
    rw [hd, ht]
    exact ⟨List.length_set .., rfl⟩
  · obtain ⟨-, ht, hd⟩ := Memory.insert_ok_temp mem r v mem2 hs h
    rw [hd, ht]
    exact ⟨rfl, List.length_set ..⟩

theorem Memory.insert_cell_self (mem : Memory) (r : Relocatable) (v : MaybeRelocatable)
    (mem2 : Memory) (h : mem.insert (.RelocatableValue r) v = .ok mem2) :
    mem2.cell r = some v := by
  by_cases hs : 0 ≤ r.segment_index
  · obtain ⟨hl, hd, -⟩ := Memory.insert_ok_real mem r v mem2 hs h
    simp only [Memory.cell, from_relocatable_to_indexes, if_pos hs, hd]
    rw [getD_set_self _ _ _ _ hl, getD_set_self]
    exact lt_length_extendTo _ _
  · obtain ⟨hl, ht, -⟩ := Memory.insert_ok_temp mem r v mem2 hs h
    simp only [Memory.cell, from_relocatable_to_indexes, if_neg hs, ht]
    rw [getD_set_self _ _ _ _ hl, getD_set_self]
    exact lt_length_extendTo _ _

theorem toNat_inj_of_nonneg {a b : Int} (ha : 0 ≤ a) (hb : 0 ≤ b)
    (h : a.toNat = b.toNat) : a = b := by
  omega

theorem neg_sub_one_toNat_inj {a b : Int} (ha : ¬ 0 ≤ a) (hb : ¬ 0 ≤ b)
    (h : (-a - 1).toNat = (-b - 1).toNat) : a = b := by
  omega

theorem Memory.insert_cell_other (mem : Memory) (r : Relocatable) (v : MaybeRelocatable)
    (mem2 : Memory) (h : mem.insert (.RelocatableValue r) v = .ok mem2)
    (r2 : Relocatable) (hne : r2 ≠ r) :
    mem2.cell r2 = mem.cell r2 := by
  by_cases hs : 0 ≤ r.segment_index
  · obtain ⟨hl, hd, ht⟩ := Memory.insert_ok_real mem r v mem2 hs h
    by_cases hs2 : 0 ≤ r2.segment_index
    · simp only [Memory.cell, from_relocatable_to_indexes, if_pos hs2, hd]
      by_cases hi : r2.segment_index.toNat = r.segment_index.toNat
      · have hseg : r2.segment_index = r.segment_index := toNat_inj_of_nonneg hs2 hs hi
        have ho : r2.offset ≠ r.offset := by
          intro hh
          exact hne (by cases r2; cases r; simp_all)
        rw [hi, getD_set_self _ _ _ _ hl, getD_set_ne _ _ _ _ _ (fun hh => ho hh.symm),
          getD_extendTo]
      · rw [getD_set_ne _ _ _ _ _ (fun hh => hi hh.symm)]
    · simp only [Memory.cell, from_relocatable_to_indexes, if_neg hs2, ht]
  · obtain ⟨hl, ht, hd⟩ := Memory.insert_ok_temp mem r v mem2 hs h
    by_cases hs2 : 0 ≤ r2.segment_index
    · simp only [Memory.cell, from_relocatable_to_indexes, if_pos hs2, hd]
    · simp only [Memory.cell, from_relocatable_to_indexes, if_neg hs2, ht]
      by_cases hi : (-(r2.segment_index) - 1).toNat = (-(r.segment_index) - 1).toNat
      · have hseg : r2.segment_index = r.segment_index := neg_sub_one_toNat_inj hs2 hs hi
        have ho : r2.offset ≠ r.offset := by
          intro hh
          exact hne (by cases r2; cases r; simp_all)
        rw [hi, getD_set_self _ _ _ _ hl, getD_set_ne _ _ _ _ _ (fun hh => ho hh.symm),
          getD_extendTo]
      · rw [getD_set_ne _ _ _ _ _ (fun hh => hi hh.symm)]

theorem Memory.insert_segment_lt (mem : Memory) (r : Relocatable) (v : MaybeRelocatable)
    (mem2 : Memory) (hs : 0 ≤ r.segment_index)
    (h : mem.insert (.RelocatableValue r) v = .ok mem2) :
    r.segment_index.toNat < mem.data.length :=
  (Memory.insert_ok_real mem r v mem2 hs h).1

theorem Memory.insert_real_grows (mem : Memory) (i o : Nat) (v : MaybeRelocatable)
    (mem2 : Memory) (h : mem.insert (.RelocatableValue ⟨(i : Int), o⟩) v = .ok mem2) :
    i < mem2.data.length ∧ o + 1 ≤ (mem2.data.getD i []).length := by
  have hs : (0 : Int) ≤ (i : Int) := Int.ofNat_nonneg i
  obtain ⟨hl, hd, -⟩ := Memory.insert_ok_real mem _ v mem2 hs h
  simp only [Int.toNat_natCast] at hl hd
  constructor
  · rw [hd, List.length_set]
    exact hl
  · rw [hd, getD_set_self _ _ _ _ hl, List.length_set]
    exact lt_length_extendTo _ _

theorem Memory.insert_seg_lt (mem : Memory) (r : Relocatable) (v : MaybeRelocatable)
    (mem2 : Memory) (h : mem.insert (.RelocatableValue r) v = .ok mem2) :
    (from_relocatable_to_indexes r).1 <
      (if 0 ≤ r.segment_index then mem.data else mem.temp_data).length := by
  by_cases hs : 0 ≤ r.segment_index
  · have hlt := (Memory.insert_ok_real mem r v mem2 hs h).1
    unfold from_relocatable_to_indexes
    rw [if_pos hs, if_pos hs]
    exact hlt
  · have hlt := (Memory.insert_ok_temp mem r v mem2 hs h).1
    unfold from_relocatable_to_indexes
    rw [if_neg hs, if_neg hs]
    exact hlt

/-! ## Lemmas about `Memory.get` and `Memory.get_range` -/

theorem fri_fst_const (s : Int) (o o2 : Nat) :
    (from_relocatable_to_indexes ⟨s, o⟩).1 = (from_relocatable_to_indexes ⟨s, o2⟩).1 := by
  by_cases hs : 0 ≤ s <;> simp [from_relocatable_to_indexes, hs]

theorem Memory.get_eq_cell (mem : Memory) (r : Relocatable)
    (h : (from_relocatable_to_indexes r).1 <
      (if 0 ≤ r.segment_index then mem.data else mem.temp_data).length) :
    mem.get (.RelocatableValue r) = .ok (mem.cell r) := by
  simp only [Memory.get, Memory.cell]
  rw [if_pos h]

theorem get_range_of_cells (mem : Memory) (s : Int) (xs : List MaybeRelocatable) :
    ∀ (o : Nat),
    (from_relocatable_to_indexes ⟨s, o⟩).1 <
      (if 0 ≤ s then mem.data else mem.temp_data).length →
    (∀ j, j < xs.length → mem.cell ⟨s, o + j⟩ = some (xs.getD j (.Int 0))) →
    mem.get_range (.RelocatableValue ⟨s, o⟩) xs.length = .ok xs := by
  induction xs with
  | nil => intro o h1 h2; rfl
  | cons x rest ih =>
    intro o h1 h2
    have hx : mem.cell ⟨s, o⟩ = some x := by
      have := h2 0 (Nat.succ_pos _)
      simpa using this
    have hget : mem.get (.RelocatableValue ⟨s, o⟩) = .ok (some x) := by
      rw [Memory.get_eq_cell mem ⟨s, o⟩ h1, hx]
    have h1s : (from_relocatable_to_indexes ⟨s, o + 1⟩).1 <
        (if 0 ≤ s then mem.data else mem.temp_data).length := by
      rw [fri_fst_const s (o + 1) o]
      exact h1
    have hrest : mem.get_range (.RelocatableValue ⟨s, o + 1⟩) rest.length = .ok rest := by
      refine ih (o + 1) h1s ?_
      intro j hj
      have := h2 (j + 1) (Nat.succ_lt_succ hj)
      have harith : o + (j + 1) = o + 1 + j := by omega
      rw [harith] at this
      simpa using this
    show mem.get_range (.RelocatableValue ⟨s, o⟩) (rest.length + 1) = .ok (x :: rest)
    simp only [Memory.get_range, hget]
    have haddr : (MaybeRelocatable.RelocatableValue ⟨s, o⟩).add_usize 1 =
        .RelocatableValue ⟨s, o + 1⟩ := rfl
    rw [haddr, hrest]

/-! ## Lemmas about `loadDataLoop` -/

theorem loadDataLoop_spec (s : Int) (o : Nat) :
    ∀ (xs : List MaybeRelocatable) (num : Nat) (mem mem2 : Memory),
    MemorySegmentManager.loadDataLoop (.RelocatableValue ⟨s, o⟩) mem num xs = .ok mem2 →
    mem2.data.length = mem.data.length ∧
    mem2.temp_data.length = mem.temp_data.length ∧
    (∀ r : Relocatable, (r.segment_index ≠ s ∨ r.offset < o + num) →
      mem2.cell r = mem.cell r) ∧
    (∀ j, j < xs.length → mem2.cell ⟨s, o + num + j⟩ = some (xs.getD j (.Int 0))) := by
  intro xs
  induction xs with
  | nil =>
    intro num mem mem2 h
    cases (Except.ok.inj h)
    exact ⟨rfl, rfl, fun r _ => rfl, fun j hj => by simp at hj⟩
  | cons v rest ih =>
    intro num mem mem2 h
    simp only [MemorySegmentManager.loadDataLoop] at h
    cases hins : mem.insert ((MaybeRelocatable.RelocatableValue ⟨s, o⟩).add_usize num) v with
    | error e => rw [hins] at h; exact absurd h (by simp)
    | ok mem1 =>
      rw [hins] at h
      have hins2 : mem.insert (.RelocatableValue ⟨s, o + num⟩) v = .ok mem1 := hins
      obtain ⟨hd, ht, hpres, hcells⟩ := ih (num + 1) mem1 mem2 h
      obtain ⟨hd1, ht1⟩ := Memory.insert_length mem ⟨s, o + num⟩ v mem1 hins2
      refine ⟨hd.trans hd1, ht.trans ht1, ?_, ?_⟩
      · intro r hr
        have hr2 : r.segment_index ≠ s ∨ r.offset < o + (num + 1) := by
          rcases hr with hr | hr
          · exact Or.inl hr
          · exact Or.inr (by omega)
        have hne : r ≠ ⟨s, o + num⟩ := by
          intro hh
          rcases hr with hr | hr
          · exact hr (by rw [hh])
          · rw [hh] at hr; simp at hr
        rw [hpres r hr2, Memory.insert_cell_other mem _ v mem1 hins2 r hne]
      · intro j hj
        cases j with
        | zero =>
          have hlt : (⟨s, o + num⟩ : Relocatable).segment_index ≠ s ∨
              (⟨s, o + num⟩ : Relocatable).offset < o + (num + 1) :=
            Or.inr (by show o + num < o + (num + 1); omega)
          have : mem2.cell ⟨s, o + num⟩ = mem1.cell ⟨s, o + num⟩ := hpres _ hlt
          have hself := Memory.insert_cell_self mem ⟨s, o + num⟩ v mem1 hins2
          simpa using this.trans hself
        | succ k =>
          have := hcells k (by simpa using hj)
          have harith : o + num + (k + 1) = o + (num + 1) + k := by omega
          rw [harith]
          simpa using this

/-- C7: a successful `load_data` writes the values at consecutive offsets,
returns the address one past the last written cell, and a subsequent
`get_range` over the written range returns exactly the loaded values
(load/read round trip); insert failures short-circuit `load_data` by
construction. -/
theorem load_data_round_trip (m : MemorySegmentManager) (s : Int) (o : Nat)
    (xs : List MaybeRelocatable) (m2 : MemorySegmentManager) (res : MaybeRelocatable)
    (h : m.load_data (.RelocatableValue ⟨s, o⟩) xs = .ok (m2, res)) :
    res = .RelocatableValue ⟨s, o + xs.length⟩ ∧
    (∀ j, j < xs.length → m2.memory.cell ⟨s, o + j⟩ = some (xs.getD j (.Int 0))) ∧
    m2.memory.get_range (.RelocatableValue ⟨s, o⟩) xs.length = .ok xs := by
  unfold MemorySegmentManager.load_data at h
  cases hl : MemorySegmentManager.loadDataLoop (.RelocatableValue ⟨s, o⟩) m.memory 0 xs with
  | error e => rw [hl] at h; exact absurd h (by simp)
  | ok mem =>
    rw [hl] at h
    have hpair := Except.ok.inj h
    have hm2 : m2 = { m with memory := mem } := (congrArg Prod.fst hpair).symm
    have hres : res = (MaybeRelocatable.RelocatableValue ⟨s, o⟩).add_usize xs.length :=
      (congrArg Prod.snd hpair).symm
    obtain ⟨hd, ht, hpres, hcells⟩ := loadDataLoop_spec s o xs 0 m.memory mem hl
    have hcells2 : ∀ j, j < xs.length → mem.cell ⟨s, o + j⟩ = some (xs.getD j (.Int 0)) := by
      intro j hj
      have := hcells j hj
      simpa using this
    refine ⟨by rw [hres]; rfl, by rw [hm2]; exact hcells2, ?_⟩
    rw [hm2]
    show mem.get_range (.RelocatableValue ⟨s, o⟩) xs.length = .ok xs
    cases xs with
    | nil => rfl
    | cons v rest =>
      simp only [MemorySegmentManager.loadDataLoop] at hl
      cases hins : m.memory.insert ((MaybeRelocatable.RelocatableValue ⟨s, o⟩).add_usize 0) v with
      | error e => rw [hins] at hl; exact absurd hl (by simp)
      | ok mem1 =>
        rw [hins] at hl
        have hins2 : m.memory.insert (.RelocatableValue ⟨s, o⟩) v = .ok mem1 := by
          have : (MaybeRelocatable.RelocatableValue ⟨s, o⟩).add_usize 0 =
              .RelocatableValue ⟨s, o⟩ := rfl
          rw [this] at hins
          exact hins
        have hseg := Memory.insert_seg_lt m.memory ⟨s, o⟩ v mem1 hins2
        have hseg2 : (from_relocatable_to_indexes ⟨s, o⟩).1 <
            (if 0 ≤ s then mem.data else mem.temp_data).length := by
          by_cases hs : 0 ≤ s
          · simpa [hs, hd] using hseg
          · simpa [hs, ht] using hseg
        exact get_range_of_cells mem s (v :: rest) o hseg2 hcells2

/-! ## Relocation: the closed form of the table -/

/-- The segment size used by relocation, defaulting to 0. -/
def sizeD (m : MemorySegmentManager) (k : Nat) : Nat :=
  (m.get_segment_size k).getD 0

/-- The first `n` relocated base addresses:
`bases[j] = 1 + Σ_{k<j} size(k)`. -/
def basesUpTo (m : MemorySegmentManager) (n : Nat) : List Nat :=
  (List.range n).map (fun j => 1 + ((List.range j).map (sizeD m)).sum)

theorem getD_map_range (f : Nat → Nat) (n j : Nat) (h : j < n) :
    ((List.range n).map f).getD j 0 = f j := by
  rw [List.getD_eq_getElem?_getD, List.getElem?_map, List.getElem?_range h]
  rfl

theorem get_segment_size_isSome (m : MemorySegmentManager) (used : List Nat)
    (h : m.segment_used_sizes = some used) (k : Nat) (hk : k < used.length) :
    (m.get_segment_size k).isSome = true := by
  unfold MemorySegmentManager.get_segment_size
  cases hA : assocLookup m.segment_sizes k with
  | some sz => rfl
  | none =>
    simp only [MemorySegmentManager.get_segment_used_size, h]
    simp [List.getElem?_eq_getElem hk]

theorem relocate_foldl_ok (m : MemorySegmentManager) :
    ∀ n, (∀ k, k < n → (m.get_segment_size k).isSome = true) →
    (List.range n).foldl (MemorySegmentManager.relocStep m) (.ok [1]) =
      .ok (basesUpTo m (n + 1)) := by
  intro n
  induction n with
  | zero => intro _; rfl
  | succ n ih =>
    intro h
    rw [List.range_succ, List.foldl_append,
      ih (fun k hk => h k (Nat.lt_succ_of_lt hk))]
    simp only [List.foldl_cons, List.foldl_nil]
    obtain ⟨sz, hsz⟩ := Option.isSome_iff_exists.mp (h n (Nat.lt_succ_self n))
    simp only [MemorySegmentManager.relocStep, hsz]
    have hg : (basesUpTo m (n + 1)).getD n 0 = 1 + ((List.range n).map (sizeD m)).sum :=
      getD_map_range _ _ _ (Nat.lt_succ_self n)
    rw [hg]
    show Except.ok _ = _
    congr 1
    unfold basesUpTo
    conv_rhs => rw [List.range_succ (n := n + 1)]
    rw [List.map_append]
    congr 1
    simp only [List.map_cons, List.map_nil]
    have hsum : ((List.range (n + 1)).map (sizeD m)).sum =
        ((List.range n).map (sizeD m)).sum + sizeD m n := by
      rw [List.range_succ, List.map_append, List.sum_append]
      simp
    rw [hsum]
    have hval : sizeD m n = sz := by simp [sizeD, hsz]
    rw [hval]
    congr 1
    omega

theorem relocate_eq_bases (m : MemorySegmentManager) (used : List Nat)
    (h : m.segment_used_sizes = some used) :
    m.relocate_segments = .ok (basesUpTo m used.length) := by
  have hfold := relocate_foldl_ok m used.length (get_segment_size_isSome m used h)
  unfold MemorySegmentManager.relocate_segments
  simp only [h, hfold]
  show Except.ok _ = _
  congr 1
  unfold basesUpTo
  rw [List.range_succ, List.map_append]
  simp

/-- C3: `relocate_segments` fails with `EffectiveSizesNotCalled` when the
effective sizes were never computed; with the effective sizes computed it
returns `R` with one entry per real segment, `R[0] = 1` and
`R[i] = R[i-1] + size(i-1)`, where `size` prefers the declared size and
falls back to the effective size (`get_segment_size`). -/
theorem relocate_segments_spec (m : MemorySegmentManager) :
    (m.segment_used_sizes = none →
      m.relocate_segments = .error .EffectiveSizesNotCalled) ∧
    (∀ used, m.segment_used_sizes = some used → used.length = m.num_segments →
      ∃ R, m.relocate_segments = .ok R ∧
        R.length = m.num_segments ∧
        (0 < R.length → R.getD 0 0 = 1) ∧
        (∀ i, 0 < i → i < R.length →
          R.getD i 0 = R.getD (i - 1) 0 + (m.get_segment_size (i - 1)).getD 0)) := by
  constructor
  · intro h
    unfold MemorySegmentManager.relocate_segments
    rw [h]
  · intro used h hlen
    refine ⟨basesUpTo m used.length, relocate_eq_bases m used h, ?_, ?_, ?_⟩
    · simp [basesUpTo, hlen]
    · intro h0
      have hlt : 0 < used.length := by simpa [basesUpTo] using h0
      unfold basesUpTo
      rw [getD_map_range _ _ _ hlt]
      simp
    · intro i h0 hi
      have hi2 : i < used.length := by simpa [basesUpTo] using hi
      obtain ⟨j, rfl⟩ : ∃ j, i = j + 1 := ⟨i - 1, by omega⟩
      show (basesUpTo m used.length).getD (j + 1) 0 = _
      unfold basesUpTo
      rw [getD_map_range _ _ _ hi2, getD_map_range _ _ _ (by omega : j + 1 - 1 < used.length)]
      have hj : j + 1 - 1 = j := by omega
      rw [hj, List.range_succ, List.map_append, List.sum_append]
      simp only [List.map_cons, List.map_nil, List.sum_cons, List.sum_nil]
      show 1 + (_ + (sizeD m j + 0)) = 1 + _ + (m.get_segment_size j).getD 0
      unfold sizeD
      omega

/-- C10: whenever the effective sizes are present, every index iterated by
`relocate_segments` is below the length of the effective-sizes vector, so
`get_segment_size` succeeds via the fallback and relocation succeeds;
`SegmentNotFinalized` is never returned. -/
theorem relocate_segments_total_of_used_sizes (m : MemorySegmentManager)
    (used : List Nat) (h : m.segment_used_sizes = some used) :
    (∃ R, m.relocate_segments = .ok R) ∧
    ∀ i, m.relocate_segments ≠ .error (.SegmentNotFinalized i) := by
  refine ⟨⟨basesUpTo m used.length, relocate_eq_bases m used h⟩, ?_⟩
  intro i hcon
  rw [relocate_eq_bases m used h] at hcon
  exact absurd hcon (by simp)

/-! ## C6: `compute_effective_sizes` -/

/-- C6: the first `compute_effective_sizes` call snapshots every real
segment's length into the cache; once cached, every later call returns the
same vector and leaves the state unchanged, whatever happened to the memory
in between; and after a successful insert at offset `o` of real segment
`i`, a first call yields an effective size of at least `o + 1` for `i`. -/
theorem compute_effective_sizes_spec (m : MemorySegmentManager) :
    (m.segment_used_sizes = none →
      m.compute_effective_sizes =
        ({ m with segment_used_sizes := some (m.memory.data.map List.length) },
          m.memory.data.map List.length)) ∧
    (∀ s, m.segment_used_sizes = some s → ∀ mem2 : Memory,
      ({ m with memory := mem2 } : MemorySegmentManager).compute_effective_sizes =
        ({ m with memory := mem2 }, s)) ∧
    (∀ (i o : Nat) (v : MaybeRelocatable) (mem2 : Memory),
      m.segment_used_sizes = none →
      m.memory.insert (.RelocatableValue ⟨(i : Int), o⟩) v = .ok mem2 →
      o + 1 ≤
        (({ m with memory := mem2 } : MemorySegmentManager).compute_effective_sizes).2.getD
          i 0) := by
  refine ⟨?_, ?_, ?_⟩
  · intro h
    simp [MemorySegmentManager.compute_effective_sizes, h]
  · intro s h mem2
    simp [MemorySegmentManager.compute_effective_sizes, h]
  · intro i o v mem2 h hins
    obtain ⟨hlen, hgrow⟩ := Memory.insert_real_grows m.memory i o v mem2 hins
    simp only [MemorySegmentManager.compute_effective_sizes, h]
    rw [getD_map_length _ _ hlen]
    exact hgrow

def mCesW : MemorySegmentManager := ⟨[], none, ⟨[[]], []⟩, []⟩

def memCesW2 : Memory := ⟨[List.replicate 6 none ++ [some (.Int 1)]], []⟩

/-- Witness for C6 at a concrete manager: a first call snapshots `[0]`; a
later call on the cached state returns `[0]` unchanged even after the
memory grew; a first call after inserting at offset 6 sees size at least 7. -/
theorem compute_effective_sizes_spec_witness :
    mCesW.compute_effective_sizes =
      ({ mCesW with segment_used_sizes := some [0] }, [0]) ∧
    (⟨[], some [0], memCesW2, []⟩ : MemorySegmentManager).compute_effective_sizes =
      (⟨[], some [0], memCesW2, []⟩, [0]) ∧
    6 + 1 ≤
      (({ mCesW with memory := memCesW2 } : MemorySegmentManager).compute_effective_sizes).2.getD
        0 0 := by
  refine ⟨(compute_effective_sizes_spec mCesW).1 rfl, ?_, ?_⟩
  · exact (compute_effective_sizes_spec
      (⟨[], some [0], mCesW.memory, []⟩ : MemorySegmentManager)).2.1 [0] rfl memCesW2
  · refine (compute_effective_sizes_spec mCesW).2.2 0 6 (.Int 1) memCesW2 rfl ?_
    rfl

/-! ## C8: `is_valid_memory_value` -/

/-- C8: `is_valid_memory_value` fails with `EffectiveSizesNotCalled` before
the effective sizes are computed; afterwards it accepts every integer,
returns for a pointer with non-negative segment index whether that index is
below the number of effective sizes, and fails with
`AddressInTemporarySegment s` for every negative segment index `s`. -/
theorem is_valid_memory_value_spec (m : MemorySegmentManager) :
    (m.segment_used_sizes = none →
      ∀ v, m.is_valid_memory_value v = .error .EffectiveSizesNotCalled) ∧
    (∀ used, m.segment_used_sizes = some used →
      (∀ f, m.is_valid_memory_value (.Int f) = .ok true) ∧
      (∀ r : Relocatable, 0 ≤ r.segment_index →
        m.is_valid_memory_value (.RelocatableValue r) =
          .ok (decide (r.segment_index.toNat < used.length))) ∧
      (∀ r : Relocatable, r.segment_index < 0 →
        m.is_valid_memory_value (.RelocatableValue r) =
          .error (.AddressInTemporarySegment r.segment_index))) := by
  constructor
  · intro h v
    cases v <;> simp [MemorySegmentManager.is_valid_memory_value, h]
  · intro used h
    refine ⟨?_, ?_, ?_⟩
    · intro f
      simp [MemorySegmentManager.is_valid_memory_value, h]
    · intro r hr
      simp [MemorySegmentManager.is_valid_memory_value, h, if_pos hr]
    · intro r hr
      have hneg : ¬ 0 ≤ r.segment_index := by omega
      simp [MemorySegmentManager.is_valid_memory_value, h, if_neg hneg]

def mValidW : MemorySegmentManager := ⟨[], some [10], ⟨[[]], []⟩, []⟩

def mNoSizesW : MemorySegmentManager := ⟨[], none, ⟨[[]], []⟩, []⟩

/-- Witness for C8 at concrete inputs: missing sizes fail; an integer and a
pointer into segment 0 are valid; a pointer into segment 1 is invalid when
only one effective size exists; a temporary-segment pointer fails. -/
theorem is_valid_memory_value_spec_witness :
    mNoSizesW.is_valid_memory_value (.Int 0) = .error .EffectiveSizesNotCalled ∧
    mValidW.is_valid_memory_value (.Int 7) = .ok true ∧
    mValidW.is_valid_memory_value (.RelocatableValue ⟨0, 5⟩) = .ok true ∧
    mValidW.is_valid_memory_value (.RelocatableValue ⟨1, 0⟩) = .ok false ∧
    mValidW.is_valid_memory_value (.RelocatableValue ⟨-1, 0⟩) =
      .error (.AddressInTemporarySegment (-1)) := by
  refine ⟨(is_valid_memory_value_spec mNoSizesW).1 rfl _,
    ((is_valid_memory_value_spec mValidW).2 [10] rfl).1 7, ?_, ?_,
    ((is_valid_memory_value_spec mValidW).2 [10] rfl).2.2 ⟨-1, 0⟩ (by decide)⟩
  · have := ((is_valid_memory_value_spec mValidW).2 [10] rfl).2.1 ⟨0, 5⟩ (by decide)
    simpa using this
  · have := ((is_valid_memory_value_spec mValidW).2 [10] rfl).2.1 ⟨1, 0⟩ (by decide)
    simpa using this

/-! ## Witnesses for C3, C7, C10 -/

def mRelocW : MemorySegmentManager :=
  ⟨[], some [3, 3, 56, 78, 8], ⟨[[], [], [], [], []], []⟩, []⟩

/-- Witness for C3 at the effective sizes `[3, 3, 56, 78, 8]`: relocation
succeeds with `R = [1, 4, 7, 63, 141]`, one entry per real segment. -/
theorem relocate_segments_spec_witness :
    mRelocW.segment_used_sizes = some [3, 3, 56, 78, 8] ∧
    mRelocW.relocate_segments = Except.ok [1, 4, 7, 63, 141] ∧
    ∃ R, mRelocW.relocate_segments = Except.ok R ∧ R.length = mRelocW.num_segments := by
  refine ⟨rfl, by rfl, ?_⟩
  obtain ⟨R, hR, hlen, -, -⟩ :=
    (relocate_segments_spec mRelocW).2 [3, 3, 56, 78, 8] rfl rfl
  exact ⟨R, hR, hlen⟩

def mLoadW : MemorySegmentManager := ⟨[], none, ⟨[[]], []⟩, []⟩

def mLoadW2 : MemorySegmentManager :=
  ⟨[], none, ⟨[[some (.Int 11), some (.Int 12), some (.Int 1)]], []⟩, []⟩

/-- Witness for C7 at a concrete load of three values into segment 0. -/
theorem load_data_round_trip_witness :
    mLoadW.load_data (.RelocatableValue ⟨0, 0⟩) [.Int 11, .Int 12, .Int 1] =
      Except.ok (mLoadW2, .RelocatableValue ⟨0, 3⟩) ∧
    mLoadW2.memory.get_range (.RelocatableValue ⟨0, 0⟩) 3 =
      Except.ok [.Int 11, .Int 12, .Int 1] := by
  have h : mLoadW.load_data (.RelocatableValue ⟨0, 0⟩) [.Int 11, .Int 12, .Int 1] =
      Except.ok (mLoadW2, .RelocatableValue ⟨0, 3⟩) := by rfl
  exact ⟨h, (load_data_round_trip mLoadW 0 0 _ mLoadW2 _ h).2.2⟩

def mTotalW : MemorySegmentManager := ⟨[], some [3, 2], ⟨[[], []], []⟩, []⟩

/-- Witness for C10 at a concrete manager with effective sizes `[3, 2]` and
no finalized segment: relocation still succeeds. -/
theorem relocate_segments_total_of_used_sizes_witness :
    (∃ R, mTotalW.relocate_segments = Except.ok R) ∧
    ∀ i, mTotalW.relocate_segments ≠ Except.error (MemoryError.SegmentNotFinalized i) :=
  relocate_segments_total_of_used_sizes mTotalW [3, 2] rfl

/-! ## `get_memory_holes`: characterization of the accumulation loop -/

/-- The offsets of the accessed addresses that fall in segment `i`, in
iteration order. -/
def touchedOffsetsAt (accessed : List Relocatable) (i : Nat) : List Nat :=
  accessed.filterMap (fun a =>
    if (from_relocatable_to_indexes a).1 = i then some (from_relocatable_to_indexes a).2
    else none)

/-- The distinct elements of a list, in first-occurrence order. -/
def distinctOffsets (l : List Nat) : List Nat :=
  l.foldl offsetsInsert []

theorem touchedOffsetsAt_cons (a : Relocatable) (rest : List Relocatable) (i : Nat) :
    touchedOffsetsAt (a :: rest) i =
      if (from_relocatable_to_indexes a).1 = i then
        (from_relocatable_to_indexes a).2 :: touchedOffsetsAt rest i
      else touchedOffsetsAt rest i := by
  by_cases h : (from_relocatable_to_indexes a).1 = i <;>
    simp [touchedOffsetsAt, List.filterMap_cons, h]

theorem accLookup_accUpdate (acc : List (Nat × Nat × List Nat)) (j o i : Nat) :
    accLookup (accUpdate acc j o) i =
      if i = j then
        match accLookup acc j with
        | some e => some (e.1, offsetsInsert e.2 o)
        | none => none
      else accLookup acc i := by
  induction acc with
  | nil => by_cases h : i = j <;> simp [accUpdate, accLookup, h]
  | cons e rest ih =>
    by_cases hej : e.1 = j
    · by_cases hij : i = j
      · simp [accUpdate, accLookup, hej, hij]
      · have hji : ¬ j = i := fun hh => hij hh.symm
        simp [accUpdate, accLookup, hej, hij, hji]
    · by_cases hei : e.1 = i
      · have hij : i ≠ j := by rw [← hei]; exact fun hh => hej hh
        simp [accUpdate, accLookup, hej, hei, hij]
      · simp [accUpdate, accLookup, hej, hei, ih]

theorem accLookup_append_single (acc : List (Nat × Nat × List Nat)) (j sz o i : Nat)
    (hnone : accLookup acc j = none) :
    accLookup (acc ++ [(j, sz, [o])]) i =
      if i = j then some (sz, [o]) else accLookup acc i := by
  induction acc with
  | nil =>
    by_cases h : i = j
    · simp [accLookup, h]
    · have hji : ¬ j = i := fun hh => h hh.symm
      simp [accLookup, h, hji]
  | cons e rest ih =>
    have hrest : accLookup rest j = none := by
      by_cases hej : e.1 = j
      · simp [accLookup, hej] at hnone
      · simpa [accLookup, hej] using hnone
    have hej : e.1 ≠ j := by
      intro hh
      simp [accLookup, hh] at hnone
    by_cases hei : e.1 = i
    · have hij : i ≠ j := by rw [← hei]; exact hej
      simp [accLookup, hei, hij]
    · simp [accLookup, hei, ih hrest]

theorem gatherAccessed_cons_found (m : MemorySegmentManager) (a : Relocatable)
    (rest : List Relocatable) (acc : List (Nat × Nat × List Nat)) (e : Nat × List Nat)
    (hA : accLookup acc (from_relocatable_to_indexes a).1 = some e)
    (hle : ¬ ((from_relocatable_to_indexes a).2 > e.1)) :
    gatherAccessed m (a :: rest) acc =
      gatherAccessed m rest
        (accUpdate acc (from_relocatable_to_indexes a).1
          (from_relocatable_to_indexes a).2) := by
  simp only [gatherAccessed, hA, if_neg hle]

theorem gatherAccessed_cons_new (m : MemorySegmentManager) (a : Relocatable)
    (rest : List Relocatable) (acc : List (Nat × Nat × List Nat)) (sz : Nat)
    (hA : accLookup acc (from_relocatable_to_indexes a).1 = none)
    (hsz : m.get_segment_size (from_relocatable_to_indexes a).1 = some sz)
    (hle : ¬ ((from_relocatable_to_indexes a).2 > sz)) :
    gatherAccessed m (a :: rest) acc =
      gatherAccessed m rest
        (acc ++ [((from_relocatable_to_indexes a).1, sz,
          [(from_relocatable_to_indexes a).2])]) := by
  simp only [gatherAccessed, hA, hsz, if_neg hle]

theorem accInv_update (m : MemorySegmentManager) (acc : List (Nat × Nat × List Nat))
    (j o : Nat)
    (hacc : ∀ i e, accLookup acc i = some e → m.get_segment_size i = some e.1) :
    ∀ i e, accLookup (accUpdate acc j o) i = some e →
      m.get_segment_size i = some e.1 := by
  intro i e he
  rw [accLookup_accUpdate] at he
  by_cases hij : i = j
  · rw [if_pos hij] at he
    cases hAj : accLookup acc j with
    | none => rw [hAj] at he; exact absurd he (by simp)
    | some e2 =>
      rw [hAj] at he
      cases Option.some.inj he
      subst hij
      exact hacc i e2 hAj
  · rw [if_neg hij] at he
    exact hacc i e he

theorem accInv_append (m : MemorySegmentManager) (acc : List (Nat × Nat × List Nat))
    (j sz o : Nat) (hA : accLookup acc j = none)
    (hsz : m.get_segment_size j = some sz)
    (hacc : ∀ i e, accLookup acc i = some e → m.get_segment_size i = some e.1) :
    ∀ i e, accLookup (acc ++ [(j, sz, [o])]) i = some e →
      m.get_segment_size i = some e.1 := by
  intro i e he
  rw [accLookup_append_single acc j sz o i hA] at he
  by_cases hij : i = j
  · rw [if_pos hij] at he
    cases Option.some.inj he
    subst hij
    exact hsz
  · rw [if_neg hij] at he
    exact hacc i e he

theorem gatherAccessed_char (m : MemorySegmentManager) :
    ∀ (accessed : List Relocatable) (acc : List (Nat × Nat × List Nat)),
    (∀ a ∈ accessed,
      (m.get_segment_size (from_relocatable_to_indexes a).1).isSome = true ∧
      (from_relocatable_to_indexes a).2 ≤
        (m.get_segment_size (from_relocatable_to_indexes a).1).getD 0) →
    (∀ i e, accLookup acc i = some e → m.get_segment_size i = some e.1) →
    ∃ sets, gatherAccessed m accessed acc = .ok sets ∧
      (∀ i e, accLookup acc i = some e →
        accLookup sets i =
          some (e.1, (touchedOffsetsAt accessed i).foldl offsetsInsert e.2)) ∧
      (∀ i, accLookup acc i = none → touchedOffsetsAt accessed i = [] →
        accLookup sets i = none) ∧
      (∀ i, accLookup acc i = none → touchedOffsetsAt accessed i ≠ [] →
        accLookup sets i =
          some ((m.get_segment_size i).getD 0,
            (touchedOffsetsAt accessed i).foldl offsetsInsert [])) := by
  intro accessed
  induction accessed with
  | nil =>
    intro acc hok hacc
    refine ⟨acc, rfl, ?_, ?_, ?_⟩
    · intro i e he
      simpa [touchedOffsetsAt] using he
    · intro i he _
      exact he
    · intro i he hne
      exact absurd rfl hne
  | cons a rest ih =>
    intro acc hok hacc
    obtain ⟨hsome, hle⟩ := hok a (List.mem_cons_self a rest)
    obtain ⟨sza, hsza⟩ := Option.isSome_iff_exists.mp hsome
    have hlea : (from_relocatable_to_indexes a).2 ≤ sza := by
      rw [hsza] at hle
      simpa using hle
    have hokr : ∀ b ∈ rest,
        (m.get_segment_size (from_relocatable_to_indexes b).1).isSome = true ∧
        (from_relocatable_to_indexes b).2 ≤
          (m.get_segment_size (from_relocatable_to_indexes b).1).getD 0 :=
      fun b hb => hok b (List.mem_cons_of_mem a hb)
    cases hA : accLookup acc (from_relocatable_to_indexes a).1 with
    | some e =>
      have hesz : m.get_segment_size (from_relocatable_to_indexes a).1 = some e.1 :=
        hacc _ e hA
      have he1 : e.1 = sza := by
        rw [hesz] at hsza
        exact Option.some.inj hsza
      have hnotgt : ¬ ((from_relocatable_to_indexes a).2 > e.1) := by omega
      rw [gatherAccessed_cons_found m a rest acc e hA hnotgt]
      obtain ⟨sets, hrun, hc1, hc2, hc3⟩ :=
        ih (accUpdate acc (from_relocatable_to_indexes a).1
            (from_relocatable_to_indexes a).2) hokr
          (accInv_update m acc _ _ hacc)
      refine ⟨sets, hrun, ?_, ?_, ?_⟩
      · intro i e2 he2
        by_cases hij : i = (from_relocatable_to_indexes a).1
        · have hee : e = e2 := by
            rw [hij, hA] at he2
            exact Option.some.inj he2
          have hupd : accLookup (accUpdate acc (from_relocatable_to_indexes a).1
              (from_relocatable_to_indexes a).2) i =
              some (e.1, offsetsInsert e.2 (from_relocatable_to_indexes a).2) := by
            rw [accLookup_accUpdate, if_pos hij, hA]
          have hres := hc1 i _ hupd
          rw [touchedOffsetsAt_cons, if_pos hij.symm, ← hee]
          simpa using hres
        · have hupd : accLookup (accUpdate acc (from_relocatable_to_indexes a).1
              (from_relocatable_to_indexes a).2) i = some e2 := by
            rw [accLookup_accUpdate, if_neg hij]
            exact he2
          have := hc1 i e2 hupd
          rw [touchedOffsetsAt_cons, if_neg (fun hh => hij hh.symm)]
          exact this
      · intro i hinone htouch
        have hij : i ≠ (from_relocatable_to_indexes a).1 := by
          intro hh
          rw [hh] at hinone
          rw [hinone] at hA
          exact absurd hA (by simp)
        rw [touchedOffsetsAt_cons, if_neg (fun hh => hij hh.symm)] at htouch
        refine hc2 i ?_ htouch
        rw [accLookup_accUpdate, if_neg hij]
        exact hinone
      · intro i hinone htouch
        have hij : i ≠ (from_relocatable_to_indexes a).1 := by
          intro hh
          rw [hh] at hinone
          rw [hinone] at hA
          exact absurd hA (by simp)
        rw [touchedOffsetsAt_cons, if_neg (fun hh => hij hh.symm)] at htouch
        have := hc3 i (by rw [accLookup_accUpdate, if_neg hij]; exact hinone) htouch
        rw [touchedOffsetsAt_cons, if_neg (fun hh => hij hh.symm)]
        exact this
    | none =>
      have hnotgt : ¬ ((from_relocatable_to_indexes a).2 > sza) := by omega
      rw [gatherAccessed_cons_new m a rest acc sza hA hsza hnotgt]
      obtain ⟨sets, hrun, hc1, hc2, hc3⟩ :=
        ih (acc ++ [((from_relocatable_to_indexes a).1, sza,
            [(from_relocatable_to_indexes a).2])]) hokr
          (accInv_append m acc _ sza _ hA hsza hacc)
      refine ⟨sets, hrun, ?_, ?_, ?_⟩
      · intro i e2 he2
        have hij : i ≠ (from_relocatable_to_indexes a).1 := by
          intro hh
          rw [hh, hA] at he2
          exact absurd he2 (by simp)
        have happ : accLookup (acc ++ [((from_relocatable_to_indexes a).1, sza,
            [(from_relocatable_to_indexes a).2])]) i = some e2 := by
          rw [accLookup_append_single acc _ sza _ i hA, if_neg hij]
          exact he2
        have := hc1 i e2 happ
        rw [touchedOffsetsAt_cons, if_neg (fun hh => hij hh.symm)]
        exact this
      · intro i hinone htouch
        by_cases hij : i = (from_relocatable_to_indexes a).1
        · exfalso
          rw [touchedOffsetsAt_cons, if_pos hij.symm] at htouch
          exact absurd htouch (by simp)
        · rw [touchedOffsetsAt_cons, if_neg (fun hh => hij hh.symm)] at htouch
          refine hc2 i ?_ htouch
          rw [accLookup_append_single acc _ sza _ i hA, if_neg hij]
          exact hinone
      · intro i hinone htouch
        by_cases hij : i = (from_relocatable_to_indexes a).1
        · have happ : accLookup (acc ++ [((from_relocatable_to_indexes a).1, sza,
              [(from_relocatable_to_indexes a).2])]) i =
              some (sza, [(from_relocatable_to_indexes a).2]) := by
            rw [accLookup_append_single acc _ sza _ i hA, if_pos hij]
          have hres := hc1 i _ happ
          rw [touchedOffsetsAt_cons, if_pos hij.symm]
          have hgD : (m.get_segment_size i).getD 0 = sza := by rw [hij, hsza]; rfl
          rw [hgD]
          have hfold : ((from_relocatable_to_indexes a).2 :: touchedOffsetsAt rest i).foldl
              offsetsInsert [] =
              (touchedOffsetsAt rest i).foldl offsetsInsert
                [(from_relocatable_to_indexes a).2] := by
            simp [offsetsInsert]
          rw [hfold]
          simpa using hres
        · rw [touchedOffsetsAt_cons, if_neg (fun hh => hij hh.symm)] at htouch
          have := hc3 i (by
            rw [accLookup_append_single acc _ sza _ i hA, if_neg hij]
            exact hinone) htouch
          rw [touchedOffsetsAt_cons, if_neg (fun hh => hij hh.symm)]
          exact this

/-- The reference value of `get_memory_holes`: segments with at least one
touched address contribute `size(i) - |distinct touched offsets|`;
untouched segments contribute 0. -/
def holesSpec (m : MemorySegmentManager) (used : List Nat)
    (accessed : List Relocatable) : Nat :=
  ((List.range (max m.segment_sizes.length used.length)).map (fun i =>
    if touchedOffsetsAt accessed i = [] then 0
    else (m.get_segment_size i).getD 0 -
      (distinctOffsets (touchedOffsetsAt accessed i)).length)).sum

theorem usizeSub_eq_sub (a b : Nat) (hba : b ≤ a) (haB : a < USIZE_BOUND) :
    usizeSub a b = a - b := by
  unfold usizeSub
  have h1 : a + USIZE_BOUND - b = (a - b) + USIZE_BOUND := by omega
  rw [h1, Nat.add_mod_right]
  exact Nat.mod_eq_of_lt (by omega)

theorem sum_filterMap_acc (g : Nat → Option (Nat × List Nat))
    (h : Nat × List Nat → Nat) (L : List Nat) :
    (((L.filterMap g).map h).sum) =
      ((L.map (fun i =>
        match g i with
        | none => 0
        | some e => h e)).sum) := by
  induction L with
  | nil => rfl
  | cons x xs ih =>
    cases hg : g x with
    | none => simp [List.filterMap_cons, hg, ih]
    | some e => simp [List.filterMap_cons, hg, ih]

/-- C2 (amended): with the effective sizes present, every touched offset
within bounds, no touched segment having more distinct touched offsets than
its size, per-segment sizes within the machine word, and a total that fits
the machine word (outside these, the `usize` subtraction or sum wraps —
a debug build panics), `get_memory_holes` returns the sum, over the segment
indices `i` below `max(len(declared sizes), len(effective sizes))` that
have at least one touched address, of `size(i)` minus the number of
distinct touched offsets in `i`; a segment with no touched address
contributes 0. -/
theorem get_memory_holes_eq_holesSpec (m : MemorySegmentManager) (used : List Nat)
    (accessed : List Relocatable)
    (hused : m.segment_used_sizes = some used)
    (hok : ∀ a ∈ accessed,
      (m.get_segment_size (from_relocatable_to_indexes a).1).isSome = true ∧
      (from_relocatable_to_indexes a).2 ≤
        (m.get_segment_size (from_relocatable_to_indexes a).1).getD 0)
    (hcnt : ∀ i, i < max m.segment_sizes.length used.length →
      (distinctOffsets (touchedOffsetsAt accessed i)).length ≤
        (m.get_segment_size i).getD 0)
    (hsz : ∀ i, i < max m.segment_sizes.length used.length →
      (m.get_segment_size i).getD 0 < USIZE_BOUND)
    (hfits : holesSpec m used accessed < USIZE_BOUND) :
    m.get_memory_holes accessed = .ok (holesSpec m used accessed) := by
  obtain ⟨sets, hrun, hc1, hc2, hc3⟩ :=
    gatherAccessed_char m accessed [] hok (fun i e he => by simp [accLookup] at he)
  unfold MemorySegmentManager.get_memory_holes
  simp only [hused, hrun]
  show Except.ok _ = _
  congr 1
  rw [sum_filterMap_acc (fun i => accLookup sets i)
    (fun e => usizeSub e.1 e.2.length) _]
  have hmap : (List.range (max m.segment_sizes.length used.length)).map
      (fun i =>
        match accLookup sets i with
        | none => 0
        | some e => usizeSub e.1 e.2.length) =
      (List.range (max m.segment_sizes.length used.length)).map (fun i =>
        if touchedOffsetsAt accessed i = [] then 0
        else (m.get_segment_size i).getD 0 -
          (distinctOffsets (touchedOffsetsAt accessed i)).length) := by
    refine List.map_congr_left ?_
    intro i hi
    have himx : i < max m.segment_sizes.length used.length := List.mem_range.mp hi
    cases ht : touchedOffsetsAt accessed i with
    | nil =>
      have hnone := hc2 i rfl ht
      simp [hnone]
    | cons x xs =>
      have hsome := hc3 i rfl (by rw [ht]; simp)
      rw [ht] at hsome
      simp only [hsome]
      have hne : (x :: xs) ≠ ([] : List Nat) := by simp
      rw [if_neg hne]
      have hcnt2 := hcnt i himx
      rw [ht] at hcnt2
      exact usizeSub_eq_sub _ _ hcnt2 (hsz i himx)
  rw [hmap]
  show holesSpec m used accessed % USIZE_BOUND = _
  exact Nat.mod_eq_of_lt hfits

def mUntouchedW : MemorySegmentManager := ⟨[], some [4], ⟨[[]], []⟩, []⟩

/-- Counterexample to C2 as stated: a segment with effective size 4 and no
touched addresses contributes 0, not 4 — `get_memory_holes` returns `ok 0`
while the claimed formula gives 4. -/
theorem get_memory_holes_untouched_segment_zero :
    mUntouchedW.get_memory_holes [] = Except.ok 0 ∧ (0 : Nat) ≠ 4 :=
  ⟨rfl, by decide⟩

def mHolesW : MemorySegmentManager := ⟨[], some [10], ⟨[[]], []⟩, []⟩

/-- Witness for the amended C2 at effective size 10 and eight touched
offsets: the hole count is 2 and agrees with the reference formula. -/
theorem get_memory_holes_eq_holesSpec_witness :
    mHolesW.get_memory_holes
      [⟨0, 0⟩, ⟨0, 1⟩, ⟨0, 2⟩, ⟨0, 3⟩, ⟨0, 6⟩, ⟨0, 7⟩, ⟨0, 8⟩, ⟨0, 9⟩] = Except.ok 2 ∧
    holesSpec mHolesW [10]
      [⟨0, 0⟩, ⟨0, 1⟩, ⟨0, 2⟩, ⟨0, 3⟩, ⟨0, 6⟩, ⟨0, 7⟩, ⟨0, 8⟩, ⟨0, 9⟩] = 2 := by
  have h := get_memory_holes_eq_holesSpec mHolesW [10]
    [⟨0, 0⟩, ⟨0, 1⟩, ⟨0, 2⟩, ⟨0, 3⟩, ⟨0, 6⟩, ⟨0, 7⟩, ⟨0, 8⟩, ⟨0, 9⟩] rfl (by decide)
    (by decide) (by decide) (by decide)
  exact ⟨h.trans (by rfl), by rfl⟩

theorem gatherAccessed_err (m : MemorySegmentManager) :
    ∀ (accessed : List Relocatable) (acc : List (Nat × Nat × List Nat)),
    (∀ a ∈ accessed,
      (m.get_segment_size (from_relocatable_to_indexes a).1).isSome = true) →
    (∀ i e, accLookup acc i = some e → m.get_segment_size i = some e.1) →
    (∃ a ∈ accessed,
      (m.get_segment_size (from_relocatable_to_indexes a).1).getD 0 <
        (from_relocatable_to_indexes a).2) →
    ∃ err, gatherAccessed m accessed acc = .error err := by
  intro accessed
  induction accessed with
  | nil =>
    intro acc _ _ hex
    simp at hex
  | cons a rest ih =>
    intro acc hsome hacc hex
    obtain ⟨sza, hsza⟩ := Option.isSome_iff_exists.mp (hsome a (List.mem_cons_self a rest))
    have hszaD : (m.get_segment_size (from_relocatable_to_indexes a).1).getD 0 = sza := by
      rw [hsza]
      rfl
    by_cases hbad : sza < (from_relocatable_to_indexes a).2
    · cases hA : accLookup acc (from_relocatable_to_indexes a).1 with
      | some e =>
        have he1 : e.1 = sza := by
          have := hacc _ e hA
          rw [this] at hsza
          exact Option.some.inj hsza
        refine ⟨MemoryError.AccessedAddressOffsetBiggerThanSegmentSize
          ⟨((from_relocatable_to_indexes a).1 : Int), (from_relocatable_to_indexes a).2⟩
          e.1, ?_⟩
        simp only [gatherAccessed, hA,
          if_pos (show (from_relocatable_to_indexes a).2 > e.1 by omega)]
      | none =>
        refine ⟨MemoryError.AccessedAddressOffsetBiggerThanSegmentSize
          ⟨((from_relocatable_to_indexes a).1 : Int), (from_relocatable_to_indexes a).2⟩
          sza, ?_⟩
        simp only [gatherAccessed, hA, hsza,
          if_pos (show (from_relocatable_to_indexes a).2 > sza by omega)]
    · have hexr : ∃ b ∈ rest,
          (m.get_segment_size (from_relocatable_to_indexes b).1).getD 0 <
            (from_relocatable_to_indexes b).2 := by
        rcases hex with ⟨b, hb, hbbad⟩
        rcases List.mem_cons.mp hb with hba | hbr
        · exfalso
          rw [hba, hszaD] at hbbad
          exact hbad hbbad
        · exact ⟨b, hbr, hbbad⟩
      have hsomer : ∀ b ∈ rest,
          (m.get_segment_size (from_relocatable_to_indexes b).1).isSome = true :=
        fun b hb => hsome b (List.mem_cons_of_mem a hb)
      cases hA : accLookup acc (from_relocatable_to_indexes a).1 with
      | some e =>
        have he1 : e.1 = sza := by
          have := hacc _ e hA
          rw [this] at hsza
          exact Option.some.inj hsza
        rw [gatherAccessed_cons_found m a rest acc e hA (by omega)]
        exact ih _ hsomer (accInv_update m acc _ _ hacc) hexr
      | none =>
        rw [gatherAccessed_cons_new m a rest acc sza hA hsza (by omega)]
        exact ih _ hsomer (accInv_append m acc _ sza _ hA hsza hacc) hexr

/-- C1 (amended): `get_memory_holes` rejects a touched address only when
its offset strictly exceeds its segment's size; an offset equal to the size
is accepted: with sizes available for all touched segments, the call
succeeds exactly when every touched offset is at most its segment's size. -/
theorem get_memory_holes_ok_iff_offsets_le (m : MemorySegmentManager)
    (used : List Nat) (accessed : List Relocatable)
    (hused : m.segment_used_sizes = some used)
    (hsome : ∀ a ∈ accessed,
      (m.get_segment_size (from_relocatable_to_indexes a).1).isSome = true) :
    (∃ v, m.get_memory_holes accessed = .ok v) ↔
      (∀ a ∈ accessed, (from_relocatable_to_indexes a).2 ≤
        (m.get_segment_size (from_relocatable_to_indexes a).1).getD 0) := by
  constructor
  · intro hv
    by_contra hnall
    push_neg at hnall
    obtain ⟨err, herr⟩ := gatherAccessed_err m accessed []
      hsome (fun i e he => by simp [accLookup] at he) hnall
    obtain ⟨v, hv⟩ := hv
    unfold MemorySegmentManager.get_memory_holes at hv
    rw [hused] at hv
    simp only [herr] at hv
    exact absurd hv (by simp)
  · intro hall
    obtain ⟨sets, hrun, -, -, -⟩ := gatherAccessed_char m accessed []
      (fun a ha => ⟨hsome a ha, hall a ha⟩) (fun i e he => by simp [accLookup] at he)
    refine ⟨(((((List.range (max m.segment_sizes.length used.length)).filterMap
      (fun i => accLookup sets i)).map
        (fun e => usizeSub e.1 e.2.length)).sum) % USIZE_BOUND), ?_⟩
    unfold MemorySegmentManager.get_memory_holes
    rw [hused]
    simp only [hrun]

def mEdgeW : MemorySegmentManager := ⟨[], some [2], ⟨[[]], []⟩, []⟩

/-- Counterexample to C1 as stated: a touched address whose offset equals
its segment's size (2) is not rejected — `get_memory_holes` returns
`ok 1`. -/
theorem get_memory_holes_accepts_offset_eq_size :
    mEdgeW.get_memory_holes [⟨0, 2⟩] = Except.ok 1 := rfl

def mIffW : MemorySegmentManager := ⟨[], some [10], ⟨[[]], []⟩, []⟩

/-- Witness for the amended C1: a touched offset equal to the segment size
(10) passes the bound check and the call succeeds. -/
theorem get_memory_holes_ok_iff_offsets_le_witness :
    ∃ v, mIffW.get_memory_holes [⟨0, 10⟩, ⟨0, 3⟩] = Except.ok v :=
  (get_memory_holes_ok_iff_offsets_le mIffW [10] [⟨0, 10⟩, ⟨0, 3⟩] rfl
    (by decide)).mpr (by decide)

/-! ## `set_add`: the search loop and its contracts -/

instance {ε α : Type} [DecidableEq ε] [DecidableEq α] : DecidableEq (Except ε α) :=
  fun a b =>
  match a, b with
  | .error x, .error y =>
    match decEq x y with
    | isTrue h => isTrue (by rw [h])
    | isFalse h => isFalse (fun hh => h (Except.error.inj hh))
  | .ok x, .ok y =>
    match decEq x y with
    | isTrue h => isTrue (by rw [h])
    | isFalse h => isFalse (fun hh => h (Except.ok.inj hh))
  | .error x, .ok y => isFalse (fun hh => Except.noConfusion hh)
  | .ok x, .error y => isFalse (fun hh => Except.noConfusion hh)

/-- A row read that succeeds with a value different from the element. -/
def RowMismatch (vm : VirtualMachine) (sp : Relocatable) (es : Nat)
    (elm : List MaybeRelocatable) (i : Nat) : Prop :=
  (vm.memory.get_range (.RelocatableValue (sp.addOff i)) es).isOk = true ∧
  vm.memory.get_range (.RelocatableValue (sp.addOff i)) es ≠ .ok elm

instance (vm : VirtualMachine) (sp : Relocatable) (es : Nat)
    (elm : List MaybeRelocatable) (i : Nat) : Decidable (RowMismatch vm sp es elm i) := by
  unfold RowMismatch
  infer_instance

theorem lt_stepBound_iff (limit step k : Nat) (hstep : 0 < step) :
    k < (limit + step - 1) / step ↔ k * step < limit := by
  rw [Nat.lt_iff_add_one_le, Nat.le_div_iff_mul_le hstep]
  have hmul : (k + 1) * step = k * step + step := by ring
  constructor
  · intro h
    omega
  · intro h
    omega

theorem mem_stepBy (limit step i : Nat) (hstep : 0 < step) :
    i ∈ stepBy limit step ↔ ∃ k, i = k * step ∧ i < limit := by
  unfold stepBy
  rw [if_neg (by omega : ¬ step = 0)]
  simp only [List.mem_map, List.mem_range]
  constructor
  · rintro ⟨k, hk, rfl⟩
    exact ⟨k, rfl, (lt_stepBound_iff limit step k hstep).mp hk⟩
  · rintro ⟨k, rfl, hlt⟩
    exact ⟨k, (lt_stepBound_iff limit step k hstep).mpr hlt, rfl⟩

theorem stepBy_pairwise (limit step : Nat) :
    List.Pairwise (· < ·) (stepBy limit step) := by
  unfold stepBy
  split
  · exact List.Pairwise.nil
  · rename_i hstep
    refine List.Pairwise.map _ ?_ (List.pairwise_lt_range _)
    intro a b hab
    exact Nat.mul_lt_mul_of_lt_of_le hab (Nat.le_refl step) (by omega)

theorem set_add_unfold (vm : VirtualMachine) (ids : IdsData) (sp ep endp : Relocatable)
    (esf es : Nat) (elm : List MaybeRelocatable)
    (h1 : get_ptr_from_var_name .set_ptr vm ids = .ok sp)
    (h2 : get_integer_from_var_name .elm_size vm ids = .ok esf)
    (h3 : feltToUsize esf = some es)
    (h4 : 0 < es)
    (h5 : get_ptr_from_var_name .elm_ptr vm ids = .ok ep)
    (h6 : get_ptr_from_var_name .set_end_ptr vm ids = .ok endp)
    (h7 : vm.memory.get_range (.RelocatableValue ep) es = .ok elm)
    (h8 : Relocatable.leb sp endp = true) :
    set_add vm ids =
      setAddLoop vm ids sp es elm (stepBy (endp.offset - sp.offset) es) := by
  have hand := of_decide_eq_true h8
  have hsub : Relocatable.sub endp sp = .ok (endp.offset - sp.offset) := by
    unfold Relocatable.sub
    rw [if_pos hand.1.symm, if_pos hand.2]
  have hne : ¬ (es = 0) := by omega
  have hlebne : ¬ (Relocatable.leb sp endp = false) := by rw [h8]; simp
  simp only [set_add, h1, h2, h3, h5, h6, if_neg hne, h7, if_neg hlebne, hsub]

theorem setAddLoop_miss (vm : VirtualMachine) (ids : IdsData) (sp : Relocatable)
    (es : Nat) (elm : List MaybeRelocatable) :
    ∀ L : List Nat, (∀ i ∈ L, RowMismatch vm sp es elm i) →
    setAddLoop vm ids sp es elm L =
      insert_value_from_var_name .is_elm_in_set (.Int 0) vm ids := by
  intro L
  induction L with
  | nil => intro _; rfl
  | cons i rest ih =>
    intro hmiss
    obtain ⟨hok, hne⟩ := hmiss i (List.mem_cons_self i rest)
    cases hg : vm.memory.get_range (.RelocatableValue (sp.addOff i)) es with
    | error e => rw [hg] at hok; exact absurd hok (by simp [Except.isOk, Except.toBool])
    | ok row =>
      have hrow : row ≠ elm := by
        intro hh
        rw [hg, hh] at hne
        exact hne rfl
      simp only [setAddLoop, hg, if_neg hrow]
      exact ih (fun j hj => hmiss j (List.mem_cons_of_mem i hj))

theorem setAddLoop_hit (vm : VirtualMachine) (ids : IdsData) (sp : Relocatable)
    (es : Nat) (elm : List MaybeRelocatable) :
    ∀ L : List Nat, List.Pairwise (· < ·) L → ∀ i0, i0 ∈ L →
    vm.memory.get_range (.RelocatableValue (sp.addOff i0)) es = .ok elm →
    (∀ i ∈ L, i < i0 → RowMismatch vm sp es elm i) →
    setAddLoop vm ids sp es elm L =
      (match insert_value_from_var_name .index (.Int ((i0 / es) % PRIME)) vm ids with
       | .error e => .error e
       | .ok vm1 => insert_value_from_var_name .is_elm_in_set (.Int 1) vm1 ids) := by
  intro L
  induction L with
  | nil =>
    intro _ i0 h
    simp at h
  | cons i rest ih =>
    intro hpw i0 hmem hhit hmiss
    rcases List.mem_cons.mp hmem with hii | hir
    · subst hii
      simp only [setAddLoop, hhit, eq_self_iff_true, if_true]
    · have hlt : i < i0 := (List.pairwise_cons.mp hpw).1 i0 hir
      obtain ⟨hok, hne⟩ := hmiss i (List.mem_cons_self i rest) hlt
      cases hg : vm.memory.get_range (.RelocatableValue (sp.addOff i)) es with
      | error e => rw [hg] at hok; exact absurd hok (by simp [Except.isOk, Except.toBool])
      | ok row =>
        have hrow : row ≠ elm := by
          intro hh
          rw [hg, hh] at hne
          exact hne rfl
        simp only [setAddLoop, hg, if_neg hrow]
        exact ih (List.pairwise_cons.mp hpw).2 i0 hir hhit
          (fun j hj hjlt => hmiss j (List.mem_cons_of_mem i hj) hjlt)

theorem insert_value_ok (n : VarName) (v : MaybeRelocatable) (vm vm2 : VirtualMachine)
    (ids : IdsData) (h : insert_value_from_var_name n v vm ids = .ok vm2) :
    ∃ r mem2, ids.addrs n = some r ∧
      vm.memory.insert (.RelocatableValue r) v = .ok mem2 ∧ vm2 = ⟨mem2⟩ := by
  unfold insert_value_from_var_name at h
  cases hr : ids.addrs n with
  | none => rw [hr] at h; exact absurd h (by simp)
  | some r =>
    rw [hr] at h
    cases hins : vm.memory.insert (.RelocatableValue r) v with
    | error e =>
      simp only [hins] at h
      exact absurd h (by simp)
    | ok mem2 =>
      simp only [hins] at h
      exact ⟨r, mem2, rfl, hins, (Except.ok.inj h).symm⟩

/-- C4: for a well-resolved `set_add` invocation with positive element size
and `set_ptr ≤ set_end_ptr`: when the first matching row of width
`elm_size` sits at word offset `i0` of the iteration, `set_add` writes
`index = i0 / elm_size` and `is_elm_in_set = 1` and returns; when no row
matches, it writes `is_elm_in_set = 0` and the cell bound to `index` is
never written (a hole remains a hole). -/
theorem set_add_search_spec (vm : VirtualMachine) (ids : IdsData)
    (sp ep endp : Relocatable) (esf es : Nat) (elm : List MaybeRelocatable)
    (h1 : get_ptr_from_var_name .set_ptr vm ids = .ok sp)
    (h2 : get_integer_from_var_name .elm_size vm ids = .ok esf)
    (h3 : feltToUsize esf = some es)
    (h4 : 0 < es)
    (h5 : get_ptr_from_var_name .elm_ptr vm ids = .ok ep)
    (h6 : get_ptr_from_var_name .set_end_ptr vm ids = .ok endp)
    (h7 : vm.memory.get_range (.RelocatableValue ep) es = .ok elm)
    (h8 : Relocatable.leb sp endp = true) :
    (∀ i0, i0 ∈ stepBy (endp.offset - sp.offset) es →
      vm.memory.get_range (.RelocatableValue (sp.addOff i0)) es = .ok elm →
      (∀ i, i ∈ stepBy (endp.offset - sp.offset) es → i < i0 →
        RowMismatch vm sp es elm i) →
      (set_add vm ids =
        (match insert_value_from_var_name .index (.Int ((i0 / es) % PRIME)) vm ids with
         | .error e => .error e
         | .ok vm1 => insert_value_from_var_name .is_elm_in_set (.Int 1) vm1 ids)) ∧
      (∀ ra rb vm2, ids.addrs .index = some ra → ids.addrs .is_elm_in_set = some rb →
        ra ≠ rb → set_add vm ids = .ok vm2 →
        vm2.memory.cell ra = some (.Int ((i0 / es) % PRIME)) ∧
        vm2.memory.cell rb = some (.Int 1))) ∧
    ((∀ i, i ∈ stepBy (endp.offset - sp.offset) es → RowMismatch vm sp es elm i) →
      set_add vm ids = insert_value_from_var_name .is_elm_in_set (.Int 0) vm ids ∧
      (∀ ra vm2, ids.addrs .index = some ra → set_add vm ids = .ok vm2 →
        (∀ rb, ids.addrs .is_elm_in_set = some rb → ra ≠ rb) →
        vm2.memory.cell ra = vm.memory.cell ra)) := by
  have hunfold := set_add_unfold vm ids sp ep endp esf es elm h1 h2 h3 h4 h5 h6 h7 h8
  constructor
  · intro i0 hmem hhit hmiss
    have heq : set_add vm ids =
        (match insert_value_from_var_name .index (.Int ((i0 / es) % PRIME)) vm ids with
         | .error e => .error e
         | .ok vm1 => insert_value_from_var_name .is_elm_in_set (.Int 1) vm1 ids) := by
      rw [hunfold]
      exact setAddLoop_hit vm ids sp es elm _ (stepBy_pairwise _ _) i0 hmem hhit hmiss
    refine ⟨heq, ?_⟩
    intro ra rb vm2 hra hrb hne hok
    rw [heq] at hok
    cases hfirst : insert_value_from_var_name .index (.Int ((i0 / es) % PRIME)) vm ids with
    | error e =>
      rw [hfirst] at hok
      exact absurd hok (by simp)
    | ok vm1 =>
      rw [hfirst] at hok
      obtain ⟨ra0, mem1, hra0, hins1, hvm1⟩ :=
        insert_value_ok .index (.Int ((i0 / es) % PRIME)) vm vm1 ids hfirst
      obtain ⟨rb0, mem2, hrb0, hins2, hvm2⟩ :=
        insert_value_ok .is_elm_in_set (.Int 1) vm1 vm2 ids hok
      have hra1 : ra0 = ra := by rw [hra] at hra0; exact (Option.some.inj hra0).symm
      have hrb1 : rb0 = rb := by rw [hrb] at hrb0; exact (Option.some.inj hrb0).symm
      rw [hra1] at hins1
      rw [hrb1] at hins2
      rw [hvm1] at hins2
      rw [hvm2]
      constructor
      · show Memory.cell mem2 ra = _
        rw [Memory.insert_cell_other _ rb (.Int 1) mem2 hins2 ra hne]
        exact Memory.insert_cell_self _ ra _ mem1 hins1
      · exact Memory.insert_cell_self _ rb _ mem2 hins2
  · intro hmiss
    have heq : set_add vm ids =
        insert_value_from_var_name .is_elm_in_set (.Int 0) vm ids := by
      rw [hunfold]
      exact setAddLoop_miss vm ids sp es elm _ hmiss
    refine ⟨heq, ?_⟩
    intro ra vm2 hra hok hnoalias
    rw [heq] at hok
    obtain ⟨rb0, mem2, hrb0, hins2, hvm2⟩ :=
      insert_value_ok .is_elm_in_set (.Int 0) vm vm2 ids hok
    subst hvm2
    show mem2.cell ra = _
    exact Memory.insert_cell_other _ rb0 (.Int 0) mem2 hins2 ra (hnoalias rb0 hrb0)

/-- C5: once the four inputs resolve, `elm_size` converts to a positive
word and the element is read, a violated range guard fails with
`InvalidSetRange` carrying the two pointers before any row is compared; in
particular every cross-segment `set_ptr`/`set_end_ptr` pair fails with
`InvalidSetRange`. -/
theorem set_add_invalid_set_range (vm : VirtualMachine) (ids : IdsData)
    (sp ep endp : Relocatable) (esf es : Nat) (elm : List MaybeRelocatable)
    (h1 : get_ptr_from_var_name .set_ptr vm ids = .ok sp)
    (h2 : get_integer_from_var_name .elm_size vm ids = .ok esf)
    (h3 : feltToUsize esf = some es)
    (h4 : 0 < es)
    (h5 : get_ptr_from_var_name .elm_ptr vm ids = .ok ep)
    (h6 : get_ptr_from_var_name .set_end_ptr vm ids = .ok endp)
    (h7 : vm.memory.get_range (.RelocatableValue ep) es = .ok elm) :
    (Relocatable.leb sp endp = false →
      set_add vm ids =
        .error (.InvalidSetRange (.RelocatableValue sp) (.RelocatableValue endp))) ∧
    (sp.segment_index ≠ endp.segment_index →
      set_add vm ids =
        .error (.InvalidSetRange (.RelocatableValue sp) (.RelocatableValue endp))) := by
  have hne : ¬ (es = 0) := by omega
  have hmain : Relocatable.leb sp endp = false →
      set_add vm ids =
        .error (.InvalidSetRange (.RelocatableValue sp) (.RelocatableValue endp)) := by
    intro hleb
    simp only [set_add, h1, h2, h3, h5, h6, if_neg hne, h7, hleb,
      eq_self_iff_true, if_true]
  refine ⟨hmain, ?_⟩
  intro hseg
  refine hmain ?_
  unfold Relocatable.leb
  exact decide_eq_false (fun hand => hseg hand.1)

/-- C9: when `elm_size` resolves to a value outside the machine word range
(in particular any "negative" field element), `set_add` fails with
`BigintToUsizeFail` immediately after reading `set_ptr`; when it resolves
to zero, `set_add` fails with `ValueNotPositive 0` after resolving the two
remaining pointers; both failures occur before any memory range is read. -/
theorem set_add_elm_size_conversion (vm : VirtualMachine) (ids : IdsData)
    (sp : Relocatable) (esf : Nat)
    (h1 : get_ptr_from_var_name .set_ptr vm ids = .ok sp)
    (h2 : get_integer_from_var_name .elm_size vm ids = .ok esf) :
    (feltToUsize esf = none →
      set_add vm ids = .error (.Internal .BigintToUsizeFail)) ∧
    (∀ ep endp : Relocatable, esf = 0 →
      get_ptr_from_var_name .elm_ptr vm ids = .ok ep →
      get_ptr_from_var_name .set_end_ptr vm ids = .ok endp →
      set_add vm ids = .error (.Internal (.ValueNotPositive 0))) := by
  constructor
  · intro hnone
    simp only [set_add, h1, h2, hnone]
  · intro ep endp hzero h5 h6
    subst hzero
    have hconv : feltToUsize 0 = some 0 := rfl
    simp only [set_add, h1, h2, hconv, h5, h6, if_pos rfl]
    rfl

/-! ## Concrete `set_add` scenarios used by the witnesses -/

def idsExW : IdsData := ⟨fun v =>
  match v with
  | .set_ptr => some ⟨1, 2⟩
  | .elm_size => some ⟨1, 3⟩
  | .elm_ptr => some ⟨1, 4⟩
  | .set_end_ptr => some ⟨1, 5⟩
  | .index => some ⟨1, 1⟩
  | .is_elm_in_set => some ⟨1, 0⟩⟩

def segSetW : List (Option MaybeRelocatable) :=
  [some (.Int 1), some (.Int 3), some (.Int 5), some (.Int 7)]

def segElmW : List (Option MaybeRelocatable) := [some (.Int 2), some (.Int 3)]

def vmMissW : VirtualMachine :=
  ⟨⟨[[], [none, none, some (.RelocatableValue ⟨2, 0⟩), some (.Int 2),
      some (.RelocatableValue ⟨3, 0⟩), some (.RelocatableValue ⟨2, 4⟩)],
     segSetW, segElmW], []⟩⟩

def vmMissW2 : VirtualMachine :=
  ⟨⟨[[], [some (.Int 0), none, some (.RelocatableValue ⟨2, 0⟩), some (.Int 2),
      some (.RelocatableValue ⟨3, 0⟩), some (.RelocatableValue ⟨2, 4⟩)],
     segSetW, segElmW], []⟩⟩

/-- Witness for C4: the element `[2, 3]` is absent from the two-row set
`[1, 3], [5, 7]`, so `set_add` writes `is_elm_in_set = 0` at `(1, 0)` and
the `index` cell `(1, 1)` stays a hole. -/
theorem set_add_search_spec_witness :
    set_add vmMissW idsExW = Except.ok vmMissW2 ∧
    vmMissW2.memory.cell ⟨1, 1⟩ = none ∧
    idsExW.addrs .index = some ⟨1, 1⟩ := by
  have hmain := (set_add_search_spec vmMissW idsExW ⟨2, 0⟩ ⟨3, 0⟩ ⟨2, 4⟩ 2 2
    [.Int 2, .Int 3] rfl rfl rfl (by decide) rfl rfl rfl rfl).2 (by decide)
  have heq : set_add vmMissW idsExW = Except.ok vmMissW2 := by
    rw [hmain.1]
    rfl
  refine ⟨heq, ?_, rfl⟩
  have hpres := hmain.2 ⟨1, 1⟩ vmMissW2 rfl heq ?_
  · rw [hpres]
    rfl
  · intro rb hrb
    have : rb = ⟨1, 0⟩ := Option.some.inj hrb.symm
    rw [this]
    decide

def vmRangeW : VirtualMachine :=
  ⟨⟨[[], [none, none, some (.RelocatableValue ⟨2, 3⟩), some (.Int 2),
      some (.RelocatableValue ⟨3, 0⟩), some (.RelocatableValue ⟨2, 2⟩)],
     segSetW, segElmW], []⟩⟩

def vmCrossW : VirtualMachine :=
  ⟨⟨[[], [none, none, some (.RelocatableValue ⟨0, 0⟩), some (.Int 2),
      some (.RelocatableValue ⟨3, 0⟩), some (.RelocatableValue ⟨2, 2⟩)],
     segSetW, segElmW], []⟩⟩

/-- Witness for C5: `set_ptr = (2, 3) > set_end_ptr = (2, 2)` fails with
`InvalidSetRange((2,3), (2,2))`; the cross-segment pair `(0, 0)`/`(2, 2)`
also fails with `InvalidSetRange`. -/
theorem set_add_invalid_set_range_witness :
    set_add vmRangeW idsExW =
      Except.error (.InvalidSetRange (.RelocatableValue ⟨2, 3⟩)
        (.RelocatableValue ⟨2, 2⟩)) ∧
    set_add vmCrossW idsExW =
      Except.error (.InvalidSetRange (.RelocatableValue ⟨0, 0⟩)
        (.RelocatableValue ⟨2, 2⟩)) := by
  constructor
  · exact (set_add_invalid_set_range vmRangeW idsExW ⟨2, 3⟩ ⟨3, 0⟩ ⟨2, 2⟩ 2 2
      [.Int 2, .Int 3] rfl rfl rfl (by decide) rfl rfl rfl).1 (by decide)
  · exact (set_add_invalid_set_range vmCrossW idsExW ⟨0, 0⟩ ⟨3, 0⟩ ⟨2, 2⟩ 2 2
      [.Int 2, .Int 3] rfl rfl rfl (by decide) rfl rfl rfl).2 (by decide)

def vmZeroW : VirtualMachine :=
  ⟨⟨[[], [none, none, some (.RelocatableValue ⟨2, 0⟩), some (.Int 0),
      some (.RelocatableValue ⟨3, 0⟩), some (.RelocatableValue ⟨2, 4⟩)],
     segSetW, segElmW], []⟩⟩

def vmNegW : VirtualMachine :=
  ⟨⟨[[], [none, none, some (.RelocatableValue ⟨2, 0⟩), some (.Int (PRIME - 2)),
      some (.RelocatableValue ⟨3, 0⟩), some (.RelocatableValue ⟨2, 4⟩)],
     segSetW, segElmW], []⟩⟩

/-- Witness for C9: `elm_size = PRIME - 2` (the field encoding of `-2`)
fails with `BigintToUsizeFail`; `elm_size = 0` fails with
`ValueNotPositive 0`. -/
theorem set_add_elm_size_conversion_witness :
    set_add vmNegW idsExW = Except.error (.Internal .BigintToUsizeFail) ∧
    set_add vmZeroW idsExW = Except.error (.Internal (.ValueNotPositive 0)) := by
  constructor
  · exact (set_add_elm_size_conversion vmNegW idsExW ⟨2, 0⟩ (PRIME - 2)
      rfl rfl).1 (by decide)
  · exact (set_add_elm_size_conversion vmZeroW idsExW ⟨2, 0⟩ 0
      rfl rfl).2 ⟨3, 0⟩ ⟨2, 4⟩ rfl rfl rfl

end CairoRs
